import Mathlib

/-!
Shallow embedding of the knowledge-augmented response orchestrator: the
TTL/LRU caches (`knowledge.py`, `conversation.py`), the token-bucket rate
limiter and the generation client's fallback logic (`llm.py`), the
knowledge aggregator and the chat pipeline (`conversation.py`), and the
encyclopedic provider's summary construction (`knowledge.py`).

Time is modelled as `Nat` ticks; the rate limiter uses `ℚ` so that the
refill division `rate / per` is exact. Python dicts are modelled as
insertion-ordered association lists, upstream network calls as explicit
oracle arguments, and raised exceptions as `Except` values.
-/

set_option autoImplicit false

namespace ChatBot

/-! ### Python-dict style association lists (insertion ordered) -/

abbrev Assoc (α : Type) := List (String × α)

namespace Assoc

variable {α : Type}

/-- `d[k]` / `k in d` lookup: the first entry whose key matches. -/
def find (l : Assoc α) (k : String) : Option α :=
  (l.find? (fun kv => kv.1 == k)).map (fun kv => kv.2)

/-- `k in d`. -/
def hasKey (l : Assoc α) (k : String) : Bool :=
  l.any (fun kv => kv.1 == k)

/-- `d[k] = v`: overwrite in place when the key is present, else append. -/
def insert (l : Assoc α) (k : String) (v : α) : Assoc α :=
  if l.any (fun kv => kv.1 == k) then
    l.map (fun kv => if kv.1 == k then (k, v) else kv)
  else
    l ++ [(k, v)]

/-- `del d[k]` (keys are unique in well-formed states). -/
def erase (l : Assoc α) (k : String) : Assoc α :=
  l.filter (fun kv => kv.1 != k)

/-- The key list, in insertion order. -/
def keys (l : Assoc α) : List String := l.map Prod.fst

end Assoc

/-- Python `min(items, key=lambda x: x[1])`: the first entry attaining the
minimal second component (ties broken by iteration order). -/
def minBySnd : List (String × Nat) → Option (String × Nat)
  | [] => none
  | x :: xs =>
    match minBySnd xs with
    | none => some x
    | some m => some (if m.2 < x.2 then m else x)

/-- Python `ttl = ttl or self.ttl`: `None` and `0` are falsy. -/
def orDefault (ttl : Option Nat) (dflt : Nat) : Nat :=
  match ttl with
  | some t => if t = 0 then dflt else t
  | none => dflt

/-! ### `KnowledgeCache` (knowledge.py): TTL cache with LRU eviction -/

/-- State of `KnowledgeCache`: `cache` maps keys to `(value, expires)`,
`access_times` maps keys to the last access tick. -/
structure KnowledgeCache (V : Type) where
  cache : Assoc (V × Nat)
  max_size : Nat
  ttl : Nat
  access_times : Assoc Nat

namespace KnowledgeCache

variable {V : Type}

/-- `KnowledgeCache.__init__`. -/
def init (V : Type) (max_size ttl_seconds : Nat) : KnowledgeCache V :=
  { cache := [], max_size := max_size, ttl := ttl_seconds, access_times := [] }

/-- `KnowledgeCache.get`: an unexpired entry is returned (and its access
time refreshed); an expired entry is removed and `None` returned. -/
def get (c : KnowledgeCache V) (now : Nat) (key : String) :
    Option V × KnowledgeCache V :=
  match c.cache.find key with
  | some (v, expires) =>
    if now < expires then
      (some v, { c with access_times := c.access_times.insert key now })
    else
      (none, { c with cache := c.cache.erase key,
                      access_times := c.access_times.erase key })
  | none => (none, c)

/-- `KnowledgeCache._evict_lru`: drop the entry with the oldest access time. -/
def evictLRU (c : KnowledgeCache V) : KnowledgeCache V :=
  match minBySnd c.access_times with
  | none => c
  | some lru =>
    { c with cache := c.cache.erase lru.1,
             access_times := c.access_times.erase lru.1 }

/-- `KnowledgeCache.set`: evict the LRU entry when at capacity, then insert. -/
def set (c : KnowledgeCache V) (now : Nat) (key : String) (v : V)
    (ttl : Option Nat) : KnowledgeCache V :=
  let c := if c.cache.length ≥ c.max_size then c.evictLRU else c
  let t := orDefault ttl c.ttl
  { c with cache := c.cache.insert key (v, now + t),
           access_times := c.access_times.insert key now }

/-- Fill the cache by `set`ting each key of `ks` in turn (the
`max_size + 1` distinct-insert scenario). -/
def setAll (c : KnowledgeCache V) (now : Nat) (ks : List String) (v : V) :
    KnowledgeCache V :=
  ks.foldl (fun acc k => acc.set now k v none) c

/-- Well-formedness of reachable `KnowledgeCache` states: both dicts have
duplicate-free keys and track the same key set, and the size bound holds. -/
structure WF (c : KnowledgeCache V) : Prop where
  nodup_cache : (Assoc.keys c.cache).Nodup
  nodup_access : (Assoc.keys c.access_times).Nodup
  same_keys : ∀ k, k ∈ Assoc.keys c.cache ↔ k ∈ Assoc.keys c.access_times
  size_le : c.cache.length ≤ c.max_size

end KnowledgeCache

/-! ### `TTLCache` (conversation.py): TTL cache without a size bound -/

/-- State of the per-session `TTLCache` used for response caching. -/
structure TTLCache where
  cache : Assoc (String × Nat)
  ttl : Nat

namespace TTLCache

/-- `TTLCache.__init__`. -/
def init (ttl_seconds : Nat) : TTLCache := { cache := [], ttl := ttl_seconds }

/-- `TTLCache.get` with its lazy-expiry side effect. -/
def get (c : TTLCache) (now : Nat) (key : String) : Option String × TTLCache :=
  match c.cache.find key with
  | some (v, expires) =>
    if now < expires then (some v, c)
    else (none, { c with cache := c.cache.erase key })
  | none => (none, c)

/-- `TTLCache.set`. -/
def set (c : TTLCache) (now : Nat) (key : String) (v : String)
    (ttl : Option Nat) : TTLCache :=
  let t := orDefault ttl c.ttl
  { c with cache := c.cache.insert key (v, now + t) }

end TTLCache

/-! ### `RateLimiter` (llm.py): token bucket -/

/-- State of the token-bucket rate limiter. -/
structure RateLimiter where
  rate : ℚ
  per : ℚ
  burst : ℚ
  tokens : ℚ
  last_refill : ℚ

namespace RateLimiter

/-- `RateLimiter.__init__`: the bucket starts full. -/
def init (rate per burst : ℚ) (now : ℚ) : RateLimiter :=
  { rate := rate, per := per, burst := burst, tokens := burst,
    last_refill := now }

/-- `RateLimiter.acquire`: refill from the elapsed time (capped at `burst`),
then either deduct and return zero wait, or return the shortfall wait
without deducting. -/
def acquire (rl : RateLimiter) (now : ℚ) (cost : ℚ) : ℚ × RateLimiter :=
  let elapsed := now - rl.last_refill
  let tokens := min rl.burst (rl.tokens + elapsed * (rl.rate / rl.per))
  let rl' := { rl with tokens := tokens, last_refill := now }
  if tokens < cost then
    ((cost - tokens) * (rl.per / rl.rate), rl')
  else
    (0, { rl' with tokens := tokens - cost })

end RateLimiter

/-! ### Substring containment (Python `in` on strings) -/

/-- Whether `pat` is an initial segment of the character list. -/
def charsStartWith : List Char → List Char → Bool
  | [], _ => true
  | _ :: _, [] => false
  | p :: ps, c :: cs => p == c && charsStartWith ps cs

/-- Whether `pat` occurs contiguously in the character list. -/
def charsContain (pat : List Char) : List Char → Bool
  | [] => charsStartWith pat []
  | c :: cs => charsStartWith pat (c :: cs) || charsContain pat cs

/-- Python `pat in s` (substring containment). -/
def strContains (s pat : String) : Bool := charsContain pat.data s.data

/-! ### String helpers shared by the services (Python semantics) -/

theorem length_dropWhile_le (p : Char → Bool) (l : List Char) :
    (l.dropWhile p).length ≤ l.length := by
  induction l with
  | nil => simp
  | cons c cs ih =>
    simp only [List.dropWhile]
    split
    · exact Nat.le_succ_of_le ih
    · simp

/-- Python's `\s` class, over the ASCII whitespace characters. -/
def pyIsSpace (c : Char) : Bool :=
  c == ' ' || c == '\t' || c == '\n' || c == '\r' || c == '\x0b' || c == '\x0c'

/-- Python's `\w` class (ASCII): alphanumeric or underscore. -/
def pyIsWord (c : Char) : Bool := c.isAlphanum || c == '_'

/-- `s.lower()` on an ASCII letter. -/
def pyLowerChar (c : Char) : Char :=
  if 'A' ≤ c ∧ c ≤ 'Z' then Char.ofNat (c.toNat + 32) else c

/-- Python `s.lower()` (over the ASCII range). -/
def pyLower (s : String) : String := String.mk (s.data.map pyLowerChar)

/-- Python `s[:n]`. -/
def pyTake (s : String) (n : Nat) : String := String.mk (s.data.take n)

/-- Python `sep.join(parts)`. -/
def pyJoin (sep : String) (parts : List String) : String :=
  String.mk (List.intercalate sep.data (parts.map String.data))

/-- One pass of Python `s.split()`: `acc` holds the current word reversed. -/
def pyWordsAux : List Char → List Char → List String
  | acc, [] => if acc = [] then [] else [String.mk acc.reverse]
  | acc, c :: cs =>
    if pyIsSpace c then
      if acc = [] then pyWordsAux [] cs
      else String.mk acc.reverse :: pyWordsAux [] cs
    else pyWordsAux (c :: acc) cs

/-- The words of Python `s.split()` (split on whitespace runs). -/
def pyWords (cs : List Char) : List String := pyWordsAux [] cs

/-- `' '.join(s.split())`: collapse whitespace runs and trim the ends. -/
def pySplitJoin (s : String) : String := pyJoin " " (pyWords s.data)

/-- `s.strip()` on a character list. -/
def pyStrip (cs : List Char) : List Char :=
  ((cs.dropWhile pyIsSpace).reverse.dropWhile pyIsSpace).reverse

/-- `s.strip()`. -/
def pyStripStr (s : String) : String := String.mk (pyStrip s.data)

/-- Python `s.split(sep)` for a non-empty separator, on character lists:
split at each non-overlapping leftmost occurrence. The fuel argument (one
unit per character) only makes the recursion structural; it never runs out
when it starts at the list length. -/
def pySplitSepAux (sep : List Char) : Nat → List Char → List (List Char)
  | _, [] => [[]]
  | 0, l => [l]
  | fuel + 1, c :: cs =>
    if sep ≠ [] ∧ charsStartWith sep (c :: cs) then
      [] :: pySplitSepAux sep fuel ((c :: cs).drop sep.length)
    else
      match pySplitSepAux sep fuel cs with
      | [] => [[c]]
      | w :: ws => (c :: w) :: ws

/-- Python `s.split(sep)` on character lists. -/
def pySplitSep (sep l : List Char) : List (List Char) :=
  pySplitSepAux sep l.length l

/-- Python `s.split(sep)` on strings. -/
def pySplitStr (s sep : String) : List String :=
  (pySplitSep sep.data s.data).map String.mk

/-! ### `CohereClient` fallbacks and retry loop (llm.py) -/

/-- `CohereClient._get_fallback_responses`, in dict iteration order. -/
def fallbackResponses : List (String × String) :=
  [("sport",
    "I know that sports are a popular topic. However, I\x27m having trouble accessing my knowledge services right now. Sports include activities like football, basketball, cricket, tennis, and many others with different rules, competitions, and famous athletes."),
   ("health",
    "Health is an important topic, but I\x27m having trouble accessing my knowledge services right now. For health-related questions, it\x27s always best to consult with qualified healthcare professionals for personalized advice."),
   ("technology",
    "Technology is evolving rapidly across areas like AI, software development, hardware, and digital services. While I\x27m having trouble connecting to my knowledge services right now, I\x27d be happy to try answering a more specific question about technology."),
   ("history",
    "Historical topics span thousands of years of human civilization, covering people, events, and societal developments. I\x27m having trouble accessing detailed historical information right now, but I\x27d be happy to try again in a moment."),
   ("science",
    "Science encompasses fields like physics, chemistry, biology, astronomy, and more. I\x27m having trouble connecting to my knowledge services right now, but I\x27d be happy to try a more specific scientific question shortly."),
   ("code",
    "Programming involves creating instructions for computers using languages like Python, JavaScript, Java, and many others. I\x27m having trouble accessing my coding knowledge right now, but I\x27d be happy to help with a specific coding problem in a moment."),
   ("music",
    "Music spans countless genres, artists, and traditions from around the world. I\x27m having trouble accessing my detailed music knowledge right now, but I\x27d be happy to try again with a more specific question shortly."),
   ("movie",
    "Films and cinema encompass a vast variety of genres, directors, actors, and storytelling techniques. I\x27m having trouble connecting to my knowledge services right now, but I\x27d be happy to discuss movies again in a moment."),
   ("game",
    "Games include video games, board games, card games, and many other forms of interactive entertainment. I\x27m having trouble accessing my gaming knowledge right now, but I\x27d be happy to try again shortly.")]

/-- The first fallback entry whose keyword occurs in the lowercased message
(`for key, fallback in self._get_fallback_responses().items(): if key in
message_lower`). -/
def findFallback (message : String) : Option (String × String) :=
  fallbackResponses.find? (fun kv => strContains (pyLower message) kv.1)

/-- The `LLMError` raised when no fallback matches. -/
def chatError (e : String) : String := "Error in chat response: " ++ e

/-- The retry loop of `CohereClient.chat`: one upstream outcome per element
of `attempts` (the initial call plus one per configured backoff entry); the
first success is returned, and when every attempt fails the fallback table
is scanned against the lowercased message before raising `LLMError`. -/
def chatLoop (message : String) : List (Except String String) → Except String String
  | [] => Except.error (chatError "")
  | [a] =>
    match a with
    | Except.ok t => Except.ok t
    | Except.error e =>
      match findFallback message with
      | some kv => Except.ok kv.2
      | none => Except.error (chatError e)
  | a :: b :: rest =>
    match a with
    | Except.ok t => Except.ok t
    | Except.error _ => chatLoop message (b :: rest)

/-- `CohereClient.chat` (non-streaming), after rate limiting: the truthy
response-cache check, then the retry loop. `cached` is the cache lookup for
the computed key; `attempts` the successive upstream outcomes. -/
def cohereChat (cached : Option String) (message : String)
    (attempts : List (Except String String)) : Except String String :=
  match cached with
  | some r => if r ≠ "" then Except.ok r else chatLoop message attempts
  | none => chatLoop message attempts

/-! ### Knowledge aggregator (`ChatManager._retrieve_knowledge`) -/

/-- One provider task's contribution in `_retrieve_knowledge`'s result loop:
a raised error is caught and leaves the `(title, info)` pair at `("", "")`. -/
def providerResult (r : Except String (String × String)) : String × String :=
  match r with
  | Except.ok p => p
  | Except.error _ => ("", "")

/-- `ChatManager._retrieve_knowledge` when both provider tasks complete
before the 8-second deadline: the static knowledge-base result wins when
its text is non-empty, else the Wikipedia result, else `("", "")`. -/
def retrieveKnowledge (wikiRes kbRes : Except String (String × String)) :
    String × String :=
  let wiki := providerResult wikiRes
  let kb := providerResult kbRes
  if kb.2 ≠ "" then kb
  else if wiki.2 ≠ "" then wiki
  else ("", "")

/-! ### `WikipediaService` text processing (knowledge.py) -/

/-- The interrogative alternatives of `_clean_query`'s leading regex, in
alternation order. -/
def interrogatives : List String :=
  ["what is", "who is", "tell me about", "how does", "where is", "when did",
   "why does", "can you explain"]

/-- Whether the anchored regex alternative `p` followed by `\s+` matches at
the start of `q`. -/
def matchesPhrase (p : String) (q : List Char) : Bool :=
  charsStartWith p.data q &&
    match q.drop p.data.length with
    | c :: _ => pyIsSpace c
    | [] => false

/-- `re.sub(r'^(what is|...)\s+', '', q)`: drop a leading interrogative
phrase and the whitespace after it. -/
def stripInterrogative (q : List Char) : List Char :=
  match interrogatives.find? (fun p => matchesPhrase p q) with
  | some p => (q.drop p.data.length).dropWhile pyIsSpace
  | none => q

/-- `re.sub(r'[^\w\s]', '', q)`: keep only word and whitespace characters. -/
def removeNonWord (q : List Char) : List Char :=
  q.filter (fun c => pyIsWord c || pyIsSpace c)

/-- `WikipediaService._clean_query`. -/
def cleanQuery (query : String) : String :=
  let q := pyLower query
  let q := String.mk (stripInterrogative q.data)
  let q := String.mk (removeNonWord q.data)
  pySplitJoin q

/-- After `[` and one digit: consume further digits and the closing `]`. -/
def dropRefRest : List Char → Option (List Char)
  | [] => none
  | c :: cs =>
    if c.isDigit then dropRefRest cs
    else if c == ']' then some cs else none

/-- After `[`: consume `\d+]`. -/
def dropRef : List Char → Option (List Char)
  | [] => none
  | c :: cs => if c.isDigit then dropRefRest cs else none

theorem dropRefRest_length {cs rest : List Char} (h : dropRefRest cs = some rest) :
    rest.length < cs.length := by
  induction cs with
  | nil => simp [dropRefRest] at h
  | cons c cs ih =>
    simp only [dropRefRest] at h
    split at h
    · exact Nat.lt_succ_of_lt (ih h)
    · split at h
      · cases h; simp
      · simp at h

theorem dropRef_length {cs rest : List Char} (h : dropRef cs = some rest) :
    rest.length < cs.length := by
  cases cs with
  | nil => simp [dropRef] at h
  | cons c cs =>
    simp only [dropRef] at h
    split at h
    · exact Nat.lt_succ_of_lt (dropRefRest_length h)
    · simp at h

/-- `re.sub(r'\[\d+\]', '', s)`: remove reference markers (fuel makes the
recursion structural; one unit per character always suffices). -/
def removeRefsAux : Nat → List Char → List Char
  | _, [] => []
  | 0, l => l
  | fuel + 1, c :: cs =>
    if c == '[' then
      match dropRef cs with
      | some rest => removeRefsAux fuel rest
      | none => c :: removeRefsAux fuel cs
    else c :: removeRefsAux fuel cs

/-- `re.sub(r'\[\d+\]', '', s)`. -/
def removeRefs (l : List Char) : List Char := removeRefsAux l.length l

/-- `re.sub(r'\s+', ' ', s)`: collapse whitespace runs to single spaces
(structural via fuel, one unit per character). -/
def collapseWSAux : Nat → List Char → List Char
  | _, [] => []
  | 0, l => l
  | fuel + 1, c :: cs =>
    if pyIsSpace c then ' ' :: collapseWSAux fuel (cs.dropWhile pyIsSpace)
    else c :: collapseWSAux fuel cs

/-- `re.sub(r'\s+', ' ', s)`. -/
def collapseWS (l : List Char) : List Char := collapseWSAux l.length l

/-- Lazy search for the closing `==` of `re.sub(r'==.*?==', '', s)`; `.`
does not match a newline. -/
def findClose : List Char → Option (List Char)
  | [] => none
  | c :: cs =>
    if charsStartWith ['=', '='] (c :: cs) then some (cs.drop 1)
    else if c == '\n' then none
    else findClose cs

theorem findClose_length {cs rest : List Char} (h : findClose cs = some rest) :
    rest.length < cs.length := by
  induction cs with
  | nil => simp [findClose] at h
  | cons c cs ih =>
    simp only [findClose] at h
    split at h
    · cases h
      exact Nat.lt_succ_of_le (Nat.le_trans (cs.length_drop 1 ▸ Nat.sub_le _ _) (Nat.le_refl _))
    · split at h
      · simp at h
      · exact Nat.lt_succ_of_lt (ih h)

/-- `re.sub(r'==.*?==', '', s)`: remove section markers, leftmost-shortest
(structural via fuel, one unit per character). -/
def stripSectionsAux : Nat → List Char → List Char
  | _, [] => []
  | 0, l => l
  | fuel + 1, c :: cs =>
    if charsStartWith ['=', '='] (c :: cs) then
      match findClose (cs.drop 1) with
      | some rest => stripSectionsAux fuel rest
      | none => c :: stripSectionsAux fuel cs
    else c :: stripSectionsAux fuel cs

/-- `re.sub(r'==.*?==', '', s)`. -/
def stripSections (l : List Char) : List Char := stripSectionsAux l.length l

/-- `WikipediaService._clean_content`: remove `[n]` reference markers,
collapse whitespace, remove `==section==` markers, strip. -/
def cleanContent (s : String) : String :=
  String.mk (pyStrip (stripSections (collapseWS (removeRefs s.data))))

/-- The paragraph list of `get_page_summary`: blank-line-separated blocks
of the page content longer than 50 characters. -/
def longParagraphs (content : String) : List String :=
  (pySplitStr content "\n\n").filter (fun p => p.length > 50)

/-- `'\n\n'.join(paragraphs[:min(3, len(paragraphs))])`. -/
def joinedExtract (content : String) : String :=
  pyJoin "\n\n"
    ((longParagraphs content).take (min 3 (longParagraphs content).length))

/-- The uncleaned summary assembled by `get_page_summary` once the full page
content is available: join up to 3 paragraphs longer than 50 characters,
truncating at 1000 characters with an appended ellipsis; when no paragraph
qualifies, fall back to the page's own short summary. -/
def rawPageSummary (content pageSummary : String) : String :=
  if longParagraphs content ≠ [] then
    if (joinedExtract content).length > 1000
    then pyTake (joinedExtract content) 1000 ++ "..."
    else joinedExtract content
  else pageSummary

/-- The summary returned by `get_page_summary` on the successful
full-content path: the assembled summary, cleaned. -/
def pageSummaryResult (content pageSummary : String) : String :=
  cleanContent (rawPageSummary content pageSummary)

/-! ### `WikipediaService.search` / `get_page_summary` cache behaviour -/

/-- Values stored in the `WikipediaService` cache: search-result lists under
`search_…` keys and summary strings under `summary_…` keys. -/
inductive WikiVal
  | searchRes (titles : List String)
  | summaryRes (text : String)
deriving DecidableEq

/-- The filtering loop of `WikipediaService.search`: keep the first three
titles that are not disambiguation pages. -/
def filterSearchResults (results : List String) : List String :=
  (results.filter (fun t => ¬ strContains (pyLower t) "(disambiguation)")).take 3

/-- `WikipediaService.search`, with the upstream Wikipedia search as an
oracle (`none` models a timeout or a raised error). Returns the result
list, the updated cache state, and whether the upstream provider was
called. -/
def wikiSearch (cache : KnowledgeCache WikiVal) (now : Nat) (query : String)
    (limit : Nat) (upstream : Option (List String)) :
    List String × KnowledgeCache WikiVal × Bool :=
  if query = "" ∨ pyStripStr query = "" then ([], cache, false)
  else
    let cache_key := "search_" ++ cleanQuery query ++ "_" ++ toString limit
    let res := cache.get now cache_key
    match res.1 with
    | some (WikiVal.searchRes r) =>
      if r ≠ [] then (r, res.2, false)
      else
        match upstream with
        | some results =>
          let filtered := filterSearchResults results
          (filtered, res.2.set now cache_key (WikiVal.searchRes filtered) none, true)
        | none => ([], res.2, true)
    | _ =>
      match upstream with
      | some results =>
        let filtered := filterSearchResults results
        (filtered, res.2.set now cache_key (WikiVal.searchRes filtered) none, true)
      | none => ([], res.2, true)

/-- The upstream outcome of one `get_page_summary` page fetch. -/
inductive PageFetch
  /-- `wiki.page` succeeded with this content; `pageSummary` is the page's
  own short summary, used when no paragraph is long enough. -/
  | fullPage (content : String) (pageSummary : String)
  /-- `wiki.page` failed but the `wiki.summary` fallback succeeded. -/
  | summaryOnly (pageSummary : String)
  /-- Both raised `DisambiguationError` with these options. -/
  | disambig (options : List String)
  /-- Timeout, `PageError`, or any other error: `None` is returned. -/
  | failure

/-- The disambiguation clarification message built by `get_page_summary`. -/
def disambigMessage (title : String) (options : List String) : String :=
  "The term \x27" ++ title ++ "\x27 could refer to multiple topics including " ++
    pyJoin ", " (options.take 3) ++
    ". Please specify which one you\x27re interested in."

/-- The cache-miss path of `get_page_summary`: fetch, clean, cache (7 days
for real summaries, 1 day for disambiguation messages; failures are not
cached). -/
def wikiSummaryMiss (cache : KnowledgeCache WikiVal) (now : Nat)
    (title cache_key : String) (upstream : PageFetch) :
    Option String × KnowledgeCache WikiVal × Bool :=
  match upstream with
  | PageFetch.fullPage content pageSummary =>
    let s := pageSummaryResult content pageSummary
    (some s, cache.set now cache_key (WikiVal.summaryRes s) (some (7 * 86400)), true)
  | PageFetch.summaryOnly pageSummary =>
    let s := cleanContent pageSummary
    (some s, cache.set now cache_key (WikiVal.summaryRes s) (some (7 * 86400)), true)
  | PageFetch.disambig options =>
    let s := disambigMessage title options
    (some s, cache.set now cache_key (WikiVal.summaryRes s) (some 86400), true)
  | PageFetch.failure => (none, cache, true)

/-- `WikipediaService.get_page_summary`, with the page fetch as an oracle.
Returns the optional summary, the updated cache state, and whether the
upstream provider was called. -/
def wikiGetPageSummary (cache : KnowledgeCache WikiVal) (now : Nat)
    (title : String) (sentences : Nat) (upstream : PageFetch) :
    Option String × KnowledgeCache WikiVal × Bool :=
  if title = "" ∨ pyStripStr title = "" then (none, cache, false)
  else
    let cache_key := "summary_" ++ title ++ "_" ++ toString sentences
    let res := cache.get now cache_key
    match res.1 with
    | some (WikiVal.summaryRes s) =>
      if s ≠ "" then (some s, res.2, false)
      else wikiSummaryMiss res.2 now title cache_key upstream
    | _ => wikiSummaryMiss res.2 now title cache_key upstream

/-! ### `ChatManager` pipeline (conversation.py) -/

/-- `ChatManager._normalize_message`: lowercase, collapse whitespace, drop
punctuation other than `?`. -/
def normalizeMessage (message : String) : String :=
  if message = "" then ""
  else
    let normalized := pySplitJoin (pyLower message)
    String.mk (normalized.data.filter (fun c => pyIsWord c || pyIsSpace c || c == '?'))

/-- The keyword patterns of `_analyze_question_type`, in check order. -/
def factualPatterns : List String :=
  ["what is", "who is", "when did", "where is", "how many", "define"]

/-- Opinion patterns of `_analyze_question_type`. -/
def opinionPatterns : List String :=
  ["what do you think", "opinion", "believe", "feel about"]

/-- Procedural patterns of `_analyze_question_type`. -/
def proceduralPatterns : List String :=
  ["how to", "how do i", "steps", "process", "procedure"]

/-- Comparison patterns of `_analyze_question_type`. -/
def comparisonPatterns : List String :=
  ["difference between", "compare", "better", "versus", "vs"]

/-- `ChatManager._analyze_question_type`. -/
def analyzeQuestionType (message : String) : String :=
  let m := pyLower message
  if factualPatterns.any (fun p => strContains m p) then "factual"
  else if opinionPatterns.any (fun p => strContains m p) then "opinion"
  else if proceduralPatterns.any (fun p => strContains m p) then "procedural"
  else if comparisonPatterns.any (fun p => strContains m p) then "comparison"
  else "knowledge"

/-- `ChatManager._create_fallback_response`. `fallbackKnowledge` is the
`GENERAL_KNOWLEDGE` table of the manager's `KnowledgeBase`, in dict order. -/
def createFallbackResponse (fallbackKnowledge : List (String × String))
    (message title retrieved_info : String) : String :=
  if retrieved_info ≠ "" then
    "Based on what I found about " ++ title ++ ": " ++ retrieved_info ++
      "\n\nThis should help answer your question about " ++ pyStripStr message ++ "."
  else
    match fallbackKnowledge.find? (fun kv => strContains (pyLower message) kv.1) with
    | some kv => kv.2
    | none =>
      "I\x27m sorry, but I\x27m having trouble generating a complete response right now. Here\x27s what I know about your question: The topic appears to be about " ++
        (if title ≠ "" then title
         else "something I don\x27t have specific information on") ++
        ". Could you try rephrasing your question or asking about something else?"

/-- `ChatManager._post_process_response`. -/
def postProcessResponse (response message title : String) : String :=
  if response = "" then
    "I apologize, but I couldn\x27t generate a response. Please try asking again."
  else if title ≠ "" ∧ ¬ strContains (pyLower response) "wikipedia" ∧ response.length > 100 then
    response ++ "\n\nInformation about " ++ title ++
      " was retrieved from Wikipedia and other knowledge sources."
  else response

/-- The generation retry loop of `process_message` (`max_retries = 2`, so
three attempts in the real runs): `attempts` lists the outcome of each
`cohere_client.chat` call; the first success is kept, and when every
attempt fails the fallback response is used. Also counts the chat calls. -/
def generationLoop (attempts : List (Except String String)) (fallback : String) :
    String × Nat :=
  match attempts with
  | [] => (fallback, 0)
  | Except.ok t :: _ => (t, 1)
  | Except.error _ :: rest =>
    let r := generationLoop rest fallback
    (r.1, r.2 + 1)

/-- Per-session state of `ChatManager`: conversation history as (role,
content) pairs, the session response cache, and the static knowledge table
of its `KnowledgeBase` (used here only for fallback responses). -/
structure ChatState where
  history : List (String × String)
  queryCache : TTLCache
  fallbackKnowledge : List (String × String)

/-- The `(title, retrieved_info)` pair after step 3: the aggregator result,
or empty strings when the outer 10-second timeout fired. -/
def knowledgeOrEmpty (knowledge : Option (String × String)) : String × String :=
  match knowledge with
  | some p => p
  | none => ("", "")

/-- The cache-miss path of `process_message` (steps 2-7), given the
already-updated cache state from the lookup and the `(title,
retrieved_info)` pair. -/
def processMessageMiss (st : ChatState) (cache : TTLCache) (now : Nat)
    (message normalized title retrieved_info : String)
    (attempts : List (Except String String)) : String × ChatState × Nat :=
  let question_type := analyzeQuestionType normalized
  let fallback :=
    createFallbackResponse st.fallbackKnowledge message title retrieved_info
  let gen := generationLoop attempts fallback
  let final_response := postProcessResponse gen.1 message title
  let ttl : Nat :=
    if question_type = "factual" ∨ question_type = "knowledge"
    then 86400 else 3600
  (final_response,
   { st with
       history := st.history ++ [("user", message), ("assistant", final_response)],
       queryCache := cache.set now normalized final_response (some ttl) },
   gen.2)

/-- `ChatManager.process_message`, with the knowledge aggregation and the
generation client as oracles: `knowledge = none` models the outer
10-second timeout, `some (title, info)` the aggregator's result; `attempts`
lists the successive generation outcomes. Returns the response text, the
new session state, and the number of generation-client calls made. -/
def processMessage (st : ChatState) (now : Nat) (message : String)
    (knowledge : Option (String × String))
    (attempts : List (Except String String)) : String × ChatState × Nat :=
  let normalized := normalizeMessage message
  let cache_key := normalized
  let res := st.queryCache.get now cache_key
  let tk := knowledgeOrEmpty knowledge
  match res.1 with
  | some cached =>
    if cached ≠ "" then
      (cached,
       { st with
           history := st.history ++ [("user", message), ("assistant", cached)],
           queryCache := res.2 }, 0)
    else processMessageMiss st res.2 now message normalized tk.1 tk.2 attempts
  | none => processMessageMiss st res.2 now message normalized tk.1 tk.2 attempts

/-! ## Lemmas about the dict model -/

namespace Assoc

variable {α : Type}

theorem any_key_iff {l : Assoc α} {k : String} :
    (l.any fun kv => kv.1 == k) = true ↔ k ∈ keys l := by
  simp [keys, List.any_eq_true]

theorem keys_cons (kv : String × α) (l : Assoc α) :
    keys (kv :: l) = kv.1 :: keys l := rfl

theorem find_cons {kv : String × α} {l : Assoc α} {j : String} :
    find (kv :: l) j = if kv.1 = j then some kv.2 else find l j := by
  unfold find
  by_cases h : kv.1 = j
  · have hb : (kv.1 == j) = true := by simpa using h
    simp [List.find?, hb, h]
  · have hb : (kv.1 == j) = false := by simpa using h
    simp [List.find?, hb, h]

theorem erase_cons {kv : String × α} {l : Assoc α} {k : String} :
    erase (kv :: l) k = if kv.1 = k then l.erase k else kv :: l.erase k := by
  unfold erase
  rw [List.filter_cons]
  by_cases h : kv.1 = k
  · rw [if_neg (by simpa using h), if_pos h]
  · rw [if_pos (by simpa using h), if_neg h]

theorem keys_map_update (l : Assoc α) (k : String) (v : α) :
    keys (l.map (fun kv => if kv.1 == k then (k, v) else kv)) = keys l := by
  induction l with
  | nil => rfl
  | cons kv l ih =>
    by_cases h : kv.1 = k
    · simpa [keys, h] using ih
    · simpa [keys, h] using ih

theorem keys_insert_of_mem {l : Assoc α} {k : String} (v : α)
    (h : k ∈ keys l) : keys (l.insert k v) = keys l := by
  unfold insert
  rw [if_pos (any_key_iff.mpr h)]
  exact keys_map_update l k v

theorem keys_insert_of_not_mem {l : Assoc α} {k : String} (v : α)
    (h : k ∉ keys l) : keys (l.insert k v) = keys l ++ [k] := by
  unfold insert
  rw [if_neg (fun hc => h (any_key_iff.mp hc))]
  simp [keys]

theorem length_insert_of_mem {l : Assoc α} {k : String} (v : α)
    (h : k ∈ keys l) : (l.insert k v).length = l.length := by
  have h1 : (keys (l.insert k v)).length = (keys l).length := by
    rw [keys_insert_of_mem v h]
  simpa [keys] using h1

theorem length_insert_of_not_mem {l : Assoc α} {k : String} (v : α)
    (h : k ∉ keys l) : (l.insert k v).length = l.length + 1 := by
  have h1 : (keys (l.insert k v)).length = (keys l ++ [k]).length := by
    rw [keys_insert_of_not_mem v h]
  simpa [keys] using h1

theorem nodup_keys_insert {l : Assoc α} {k : String} (v : α)
    (hnd : (keys l).Nodup) : (keys (l.insert k v)).Nodup := by
  by_cases h : k ∈ keys l
  · rw [keys_insert_of_mem v h]; exact hnd
  · rw [keys_insert_of_not_mem v h, List.nodup_append]
    refine ⟨hnd, List.nodup_singleton k, ?_⟩
    intro a ha hb
    rw [List.mem_singleton] at hb
    exact h (hb ▸ ha)

theorem mem_keys_insert {l : Assoc α} {j k : String} (v : α) :
    j ∈ keys (l.insert k v) ↔ j ∈ keys l ∨ j = k := by
  by_cases h : k ∈ keys l
  · rw [keys_insert_of_mem v h]
    constructor
    · exact Or.inl
    · rintro (hj | rfl)
      · exact hj
      · exact h
  · rw [keys_insert_of_not_mem v h]
    simp

theorem find_map_update_self {l : Assoc α} {k : String} (v : α)
    (h : k ∈ keys l) :
    find (l.map (fun kv => if kv.1 == k then (k, v) else kv)) k = some v := by
  induction l with
  | nil => simp [keys] at h
  | cons kv l ih =>
    by_cases hk : kv.1 = k
    · simp [find_cons, hk]
    · rw [List.map_cons, if_neg (by simpa using hk), find_cons, if_neg hk]
      rw [keys_cons, List.mem_cons] at h
      exact ih (h.resolve_left (fun he => hk he.symm))

theorem find_map_update_of_ne {l : Assoc α} {j k : String} (v : α)
    (h : j ≠ k) :
    find (l.map (fun kv => if kv.1 == k then (k, v) else kv)) j = l.find j := by
  induction l with
  | nil => rfl
  | cons kv l ih =>
    by_cases hk : kv.1 = k
    · rw [List.map_cons, if_pos (by simpa using hk), find_cons, find_cons,
        if_neg (show (k, v).1 ≠ j from Ne.symm h),
        if_neg (show kv.1 ≠ j by rw [hk]; exact Ne.symm h)]
      exact ih
    · rw [List.map_cons, if_neg (by simpa using hk), find_cons, find_cons]
      by_cases hj : kv.1 = j
      · simp [hj]
      · rw [if_neg hj, if_neg hj]; exact ih

theorem find_append_single_self {l : Assoc α} {k : String} (v : α)
    (h : k ∉ keys l) : find (l ++ [(k, v)]) k = some v := by
  induction l with
  | nil => simp [find_cons]
  | cons kv l ih =>
    rw [keys_cons, List.mem_cons, not_or] at h
    rw [List.cons_append, find_cons, if_neg (fun he => h.1 he.symm)]
    exact ih h.2

theorem find_append_single_of_ne {l : Assoc α} {j k : String} (v : α)
    (h : j ≠ k) : find (l ++ [(k, v)]) j = l.find j := by
  induction l with
  | nil =>
    rw [List.nil_append, find_cons, if_neg (show k ≠ j from Ne.symm h)]
  | cons kv l ih =>
    rw [List.cons_append, find_cons, find_cons]
    by_cases hj : kv.1 = j
    · simp [hj]
    · rw [if_neg hj, if_neg hj]; exact ih

theorem find_insert_self (l : Assoc α) (k : String) (v : α) :
    (l.insert k v).find k = some v := by
  unfold insert
  split
  case isTrue h => exact find_map_update_self v (any_key_iff.mp h)
  case isFalse h =>
    exact find_append_single_self v (fun hc => h (any_key_iff.mpr hc))

theorem find_insert_of_ne {l : Assoc α} {j k : String} (v : α) (h : j ≠ k) :
    (l.insert k v).find j = l.find j := by
  unfold insert
  split
  · exact find_map_update_of_ne v h
  · exact find_append_single_of_ne v h

theorem erase_of_not_mem {l : Assoc α} {k : String} (h : k ∉ keys l) :
    l.erase k = l := by
  induction l with
  | nil => rfl
  | cons kv l ih =>
    rw [keys_cons, List.mem_cons, not_or] at h
    rw [erase_cons, if_neg (fun he => h.1 he.symm), ih h.2]

theorem mem_keys_erase {l : Assoc α} {j k : String} :
    j ∈ keys (l.erase k) ↔ j ∈ keys l ∧ j ≠ k := by
  induction l with
  | nil => simp [erase, keys]
  | cons kv l ih =>
    rw [erase_cons]
    by_cases hk : kv.1 = k
    · rw [if_pos hk, ih, keys_cons, List.mem_cons]
      constructor
      · rintro ⟨hj, hne⟩; exact ⟨Or.inr hj, hne⟩
      · rintro ⟨hj | hj, hne⟩
        · exact absurd (hk ▸ hj) hne
        · exact ⟨hj, hne⟩
    · rw [if_neg hk, keys_cons, keys_cons, List.mem_cons, List.mem_cons, ih]
      constructor
      · rintro (hj | ⟨hj, hne⟩)
        · exact ⟨Or.inl hj, hj ▸ hk⟩
        · exact ⟨Or.inr hj, hne⟩
      · rintro ⟨hj | hj, hne⟩
        · exact Or.inl hj
        · exact Or.inr ⟨hj, hne⟩

theorem nodup_keys_erase {l : Assoc α} {k : String}
    (hnd : (keys l).Nodup) : (keys (l.erase k)).Nodup := by
  induction l with
  | nil => simp [erase, keys]
  | cons kv l ih =>
    rw [keys_cons, List.nodup_cons] at hnd
    rw [erase_cons]
    by_cases hk : kv.1 = k
    · rw [if_pos hk]; exact ih hnd.2
    · rw [if_neg hk, keys_cons, List.nodup_cons]
      exact ⟨fun hc => hnd.1 (mem_keys_erase.mp hc).1, ih hnd.2⟩

theorem length_erase_of_mem {l : Assoc α} {k : String}
    (hnd : (keys l).Nodup) (h : k ∈ keys l) :
    (l.erase k).length + 1 = l.length := by
  induction l with
  | nil => simp [keys] at h
  | cons kv l ih =>
    rw [keys_cons, List.nodup_cons] at hnd
    rw [erase_cons]
    by_cases hk : kv.1 = k
    · rw [if_pos hk, erase_of_not_mem (hk ▸ hnd.1)]
      simp
    · rw [keys_cons, List.mem_cons] at h
      have hkl : k ∈ keys l := h.resolve_left (fun he => hk he.symm)
      rw [if_neg hk, List.length_cons, List.length_cons, ← ih hnd.2 hkl]

theorem find_erase_self (l : Assoc α) (k : String) :
    (l.erase k).find k = none := by
  induction l with
  | nil => rfl
  | cons kv l ih =>
    rw [erase_cons]
    by_cases hk : kv.1 = k
    · rw [if_pos hk]; exact ih
    · rw [if_neg hk, find_cons, if_neg hk]; exact ih

theorem find_erase_of_ne {l : Assoc α} {j k : String} (h : j ≠ k) :
    (l.erase k).find j = l.find j := by
  induction l with
  | nil => rfl
  | cons kv l ih =>
    rw [erase_cons]
    by_cases hk : kv.1 = k
    · rw [if_pos hk, find_cons, if_neg (by rw [hk]; exact Ne.symm h)]
      exact ih
    · rw [if_neg hk, find_cons, find_cons]
      by_cases hj : kv.1 = j
      · simp [hj]
      · rw [if_neg hj, if_neg hj]; exact ih

theorem find_isSome_iff {l : Assoc α} {k : String} :
    (l.find k).isSome = true ↔ k ∈ keys l := by
  induction l with
  | nil => simp [find, keys]
  | cons kv l ih =>
    rw [find_cons]
    by_cases hk : kv.1 = k
    · simp [hk, keys]
    · rw [if_neg hk, keys_cons, List.mem_cons, ih]
      constructor
      · exact Or.inr
      · rintro (hj | hj)
        · exact absurd hj.symm hk
        · exact hj

end Assoc

/-! ## Lemmas about `minBySnd` (Python `min` with a key function) -/

theorem minBySnd_eq_none {l : List (String × Nat)} (h : minBySnd l = none) :
    l = [] := by
  cases l with
  | nil => rfl
  | cons x xs =>
    simp only [minBySnd] at h
    cases hx : minBySnd xs <;> rw [hx] at h <;> simp at h

theorem minBySnd_mem : ∀ {l : List (String × Nat)} {m : String × Nat},
    minBySnd l = some m → m ∈ l := by
  intro l
  induction l with
  | nil => intro m h; simp [minBySnd] at h
  | cons x xs ih =>
    intro m h
    simp only [minBySnd] at h
    cases hx : minBySnd xs with
    | none =>
      rw [hx] at h
      injection h with h
      exact h ▸ List.mem_cons_self x xs
    | some m' =>
      rw [hx] at h
      injection h with h
      subst h
      split
      · exact List.mem_cons_of_mem _ (ih hx)
      · exact List.mem_cons_self x xs

theorem minBySnd_le : ∀ {l : List (String × Nat)} {m : String × Nat},
    minBySnd l = some m → ∀ p ∈ l, m.2 ≤ p.2 := by
  intro l
  induction l with
  | nil => intro m h; simp [minBySnd] at h
  | cons x xs ih =>
    intro m h p hp
    simp only [minBySnd] at h
    cases hx : minBySnd xs with
    | none =>
      rw [hx] at h
      injection h with h
      subst h
      rcases List.mem_cons.mp hp with rfl | hp
      · exact Nat.le_refl _
      · exact absurd (minBySnd_eq_none hx ▸ hp) (List.not_mem_nil p)
    | some m' =>
      rw [hx] at h
      injection h with h
      subst h
      rcases List.mem_cons.mp hp with rfl | hp
      · split
        case isTrue hlt => exact Nat.le_of_lt hlt
        case isFalse hlt => exact Nat.le_refl _
      · split
        case isTrue hlt => exact ih hx p hp
        case isFalse hlt => exact Nat.le_trans (Nat.le_of_not_lt hlt) (ih hx p hp)

theorem minBySnd_isSome {l : List (String × Nat)} (h : l ≠ []) :
    ∃ m, minBySnd l = some m := by
  cases l with
  | nil => exact absurd rfl h
  | cons x xs =>
    simp only [minBySnd]
    cases minBySnd xs
    · exact ⟨x, rfl⟩
    · exact ⟨_, rfl⟩

/-! ## Lemmas about `KnowledgeCache` -/

namespace KnowledgeCache

variable {V : Type}

theorem mem_keys_of_mem {l : Assoc Nat} {p : String × Nat} (h : p ∈ l) :
    p.1 ∈ Assoc.keys l := List.mem_map_of_mem Prod.fst h

/-- A well-formed cache at positive capacity has a non-empty `access_times`;
`_evict_lru` then removes exactly the oldest-accessed entry. -/
theorem evictLRU_spec {c : KnowledgeCache V} (hwf : c.WF)
    (hne : c.cache ≠ []) :
    ∃ lru, minBySnd c.access_times = some lru ∧ lru ∈ c.access_times ∧
      (∀ p ∈ c.access_times, lru.2 ≤ p.2) ∧ lru.1 ∈ Assoc.keys c.cache ∧
      c.evictLRU =
        { c with cache := c.cache.erase lru.1,
                 access_times := c.access_times.erase lru.1 } := by
  have hkey : ∃ k, k ∈ Assoc.keys c.cache := by
    cases hc : c.cache with
    | nil => exact absurd hc hne
    | cons kv l =>
      refine ⟨kv.1, ?_⟩
      rw [Assoc.keys_cons]
      exact List.mem_cons_self _ _
  obtain ⟨k, hk⟩ := hkey
  have haccne : c.access_times ≠ [] := by
    intro hc
    have := (hwf.same_keys k).mp hk
    rw [hc] at this
    simp [Assoc.keys] at this
  obtain ⟨lru, hlru⟩ := minBySnd_isSome haccne
  refine ⟨lru, hlru, minBySnd_mem hlru, minBySnd_le hlru, ?_, ?_⟩
  · exact (hwf.same_keys lru.1).mpr (mem_keys_of_mem (minBySnd_mem hlru))
  · unfold evictLRU
    rw [hlru]

/-- The insert phase of `set` (after any eviction) preserves well-formedness
and the key/length bookkeeping. -/
theorem insert_phase_wf {c : KnowledgeCache V} (now : Nat) (k : String)
    (v : V × Nat) (hwf : c.WF) (hlen : c.cache.length < c.max_size) :
    WF { c with cache := c.cache.insert k v,
                access_times := c.access_times.insert k now } := by
  refine ⟨Assoc.nodup_keys_insert v hwf.nodup_cache,
          Assoc.nodup_keys_insert now hwf.nodup_access, ?_, ?_⟩
  · intro j
    rw [Assoc.mem_keys_insert, Assoc.mem_keys_insert]
    constructor
    · rintro (hj | rfl)
      · exact Or.inl ((hwf.same_keys j).mp hj)
      · exact Or.inr rfl
    · rintro (hj | rfl)
      · exact Or.inl ((hwf.same_keys j).mpr hj)
      · exact Or.inr rfl
  · by_cases hk : k ∈ Assoc.keys c.cache
    · rw [Assoc.length_insert_of_mem v hk]
      exact hwf.size_le
    · rw [Assoc.length_insert_of_not_mem v hk]
      exact hlen

theorem evictLRU_max_size (c : KnowledgeCache V) :
    (c.evictLRU).max_size = c.max_size := by
  unfold evictLRU
  cases minBySnd c.access_times <;> rfl

theorem evictLRU_ttl (c : KnowledgeCache V) : (c.evictLRU).ttl = c.ttl := by
  unfold evictLRU
  cases minBySnd c.access_times <;> rfl

theorem set_eq_of_lt {c : KnowledgeCache V} (now : Nat) (k : String) (v : V)
    (ttl : Option Nat) (h : c.cache.length < c.max_size) :
    c.set now k v ttl =
      { c with cache := c.cache.insert k (v, now + orDefault ttl c.ttl),
               access_times := c.access_times.insert k now } := by
  unfold set
  rw [if_neg (Nat.not_le.mpr h)]

theorem set_eq_of_ge {c : KnowledgeCache V} (now : Nat) (k : String) (v : V)
    (ttl : Option Nat) (h : c.cache.length ≥ c.max_size) :
    c.set now k v ttl =
      { c.evictLRU with
          cache := (c.evictLRU).cache.insert k
            (v, now + orDefault ttl (c.evictLRU).ttl),
          access_times := (c.evictLRU).access_times.insert k now } := by
  unfold set
  rw [if_pos h]

theorem cache_ne_nil_of_full {c : KnowledgeCache V} (hpos : 0 < c.max_size)
    (h : c.cache.length ≥ c.max_size) : c.cache ≠ [] := by
  intro hc
  rw [hc] at h
  simp at h
  omega

/-- Eviction from a well-formed non-empty cache: well-formedness is kept,
the length drops by one, and the surviving keys are old keys. -/
theorem evictLRU_wf {c : KnowledgeCache V} (hwf : c.WF) (hne : c.cache ≠ []) :
    (c.evictLRU).WF ∧ (c.evictLRU).cache.length + 1 = c.cache.length ∧
      (∀ j, j ∈ Assoc.keys (c.evictLRU).cache → j ∈ Assoc.keys c.cache) := by
  obtain ⟨lru, _, _, _, hmem, heq⟩ := evictLRU_spec hwf hne
  rw [heq]
  refine ⟨⟨Assoc.nodup_keys_erase hwf.nodup_cache,
           Assoc.nodup_keys_erase hwf.nodup_access, ?_, ?_⟩, ?_, ?_⟩
  · intro j
    rw [Assoc.mem_keys_erase, Assoc.mem_keys_erase]
    exact and_congr_left (fun _ => hwf.same_keys j)
  · show (c.cache.erase lru.1).length ≤ c.max_size
    have h1 := Assoc.length_erase_of_mem hwf.nodup_cache hmem
    have h2 := hwf.size_le
    omega
  · exact Assoc.length_erase_of_mem hwf.nodup_cache hmem
  · intro j hj
    exact (Assoc.mem_keys_erase.mp hj).1

/-- `set` preserves well-formedness on caches with positive capacity. -/
theorem set_wf {c : KnowledgeCache V} (now : Nat) (k : String) (v : V)
    (ttl : Option Nat) (hwf : c.WF) (hpos : 0 < c.max_size) :
    (c.set now k v ttl).WF := by
  by_cases h : c.cache.length ≥ c.max_size
  · have hlen : c.cache.length = c.max_size := Nat.le_antisymm hwf.size_le h
    obtain ⟨hewf, helen, _⟩ := evictLRU_wf hwf (cache_ne_nil_of_full hpos h)
    have hlt : (c.evictLRU).cache.length < (c.evictLRU).max_size := by
      rw [evictLRU_max_size]
      omega
    rw [set_eq_of_ge now k v ttl h]
    exact insert_phase_wf now k _ hewf hlt
  · rw [set_eq_of_lt now k v ttl (Nat.not_le.mp h)]
    exact insert_phase_wf now k _ hwf (Nat.not_le.mp h)

theorem set_max_size (c : KnowledgeCache V) (now : Nat) (k : String) (v : V)
    (ttl : Option Nat) : (c.set now k v ttl).max_size = c.max_size := by
  by_cases h : c.cache.length ≥ c.max_size
  · rw [set_eq_of_ge now k v ttl h]
    exact evictLRU_max_size c
  · rw [set_eq_of_lt now k v ttl (Nat.not_le.mp h)]

theorem set_ttl_field (c : KnowledgeCache V) (now : Nat) (k : String) (v : V)
    (ttl : Option Nat) : (c.set now k v ttl).ttl = c.ttl := by
  by_cases h : c.cache.length ≥ c.max_size
  · rw [set_eq_of_ge now k v ttl h]
    exact evictLRU_ttl c
  · rw [set_eq_of_lt now k v ttl (Nat.not_le.mp h)]

theorem set_keys_subset {c : KnowledgeCache V} (now : Nat) (k : String)
    (v : V) (ttl : Option Nat) (hwf : c.WF) (hpos : 0 < c.max_size) :
    ∀ j, j ∈ Assoc.keys (c.set now k v ttl).cache →
      j ∈ Assoc.keys c.cache ∨ j = k := by
  intro j hj
  by_cases h : c.cache.length ≥ c.max_size
  · obtain ⟨_, _, hsub⟩ := evictLRU_wf hwf (cache_ne_nil_of_full hpos h)
    rw [set_eq_of_ge now k v ttl h] at hj
    rcases (Assoc.mem_keys_insert _).mp hj with hj | rfl
    · exact Or.inl (hsub j hj)
    · exact Or.inr rfl
  · rw [set_eq_of_lt now k v ttl (Nat.not_le.mp h)] at hj
    rcases (Assoc.mem_keys_insert _).mp hj with hj | rfl
    · exact Or.inl hj
    · exact Or.inr rfl

/-- Setting a key not yet present: the size grows by one until the bound is
reached, and stays at the bound afterwards. -/
theorem set_length_new {c : KnowledgeCache V} (now : Nat) (k : String)
    (v : V) (ttl : Option Nat) (hwf : c.WF) (hpos : 0 < c.max_size)
    (hk : k ∉ Assoc.keys c.cache) :
    (c.set now k v ttl).cache.length = min (c.cache.length + 1) c.max_size := by
  by_cases h : c.cache.length ≥ c.max_size
  · have hlen : c.cache.length = c.max_size := Nat.le_antisymm hwf.size_le h
    obtain ⟨hewf, helen, hsub⟩ := evictLRU_wf hwf (cache_ne_nil_of_full hpos h)
    have hk' : k ∉ Assoc.keys (c.evictLRU).cache := fun hc => hk (hsub k hc)
    calc (c.set now k v ttl).cache.length
        = ((c.evictLRU).cache.insert k
            (v, now + orDefault ttl (c.evictLRU).ttl)).length := by
          rw [set_eq_of_ge now k v ttl h]
      _ = (c.evictLRU).cache.length + 1 :=
          Assoc.length_insert_of_not_mem _ hk'
      _ = min (c.cache.length + 1) c.max_size := by omega
  · have hlt := Nat.not_le.mp h
    calc (c.set now k v ttl).cache.length
        = (c.cache.insert k (v, now + orDefault ttl c.ttl)).length := by
          rw [set_eq_of_lt now k v ttl hlt]
      _ = c.cache.length + 1 := Assoc.length_insert_of_not_mem _ hk
      _ = min (c.cache.length + 1) c.max_size := by omega

theorem get_eq_miss {c : KnowledgeCache V} {now : Nat} {key : String}
    (hf : c.cache.find key = none) : c.get now key = (none, c) := by
  unfold get
  rw [hf]

theorem get_eq_hit {c : KnowledgeCache V} {now : Nat} {key : String}
    {v : V} {e : Nat} (hf : c.cache.find key = some (v, e)) (hlt : now < e) :
    c.get now key =
      (some v, { c with access_times := c.access_times.insert key now }) := by
  unfold get
  rw [hf]
  simp [hlt]

theorem get_eq_expired {c : KnowledgeCache V} {now : Nat} {key : String}
    {v : V} {e : Nat} (hf : c.cache.find key = some (v, e)) (hge : e ≤ now) :
    c.get now key =
      (none, { c with cache := c.cache.erase key,
                      access_times := c.access_times.erase key }) := by
  unfold get
  rw [hf]
  simp [Nat.not_lt.mpr hge]

/-- `get` preserves well-formedness. -/
theorem get_wf {c : KnowledgeCache V} (now : Nat) (key : String)
    (hwf : c.WF) : ((c.get now key).2).WF := by
  cases hf : c.cache.find key with
  | none => rw [get_eq_miss hf]; exact hwf
  | some ve =>
    obtain ⟨v, e⟩ := ve
    by_cases hlt : now < e
    · rw [get_eq_hit hf hlt]
      have hkc : key ∈ Assoc.keys c.cache := by
        have hs : (c.cache.find key).isSome = true := by rw [hf]; rfl
        exact Assoc.find_isSome_iff.mp hs
      have hka : key ∈ Assoc.keys c.access_times := (hwf.same_keys key).mp hkc
      refine ⟨hwf.nodup_cache, ?_, ?_, hwf.size_le⟩
      · show (Assoc.keys (c.access_times.insert key now)).Nodup
        rw [Assoc.keys_insert_of_mem now hka]
        exact hwf.nodup_access
      · intro j
        show j ∈ Assoc.keys c.cache ↔ j ∈ Assoc.keys (c.access_times.insert key now)
        rw [Assoc.keys_insert_of_mem now hka]
        exact hwf.same_keys j
    · rw [get_eq_expired hf (Nat.le_of_not_lt hlt)]
      refine ⟨Assoc.nodup_keys_erase hwf.nodup_cache,
              Assoc.nodup_keys_erase hwf.nodup_access, ?_, ?_⟩
      · intro j
        show j ∈ Assoc.keys (c.cache.erase key) ↔
          j ∈ Assoc.keys (c.access_times.erase key)
        rw [Assoc.mem_keys_erase, Assoc.mem_keys_erase]
        exact and_congr_left (fun _ => hwf.same_keys j)
      · show (c.cache.erase key).length ≤ c.max_size
        exact Nat.le_trans (List.length_filter_le _ _) hwf.size_le

/-- The freshly constructed cache is well-formed. -/
theorem init_wf (V : Type) (max_size ttl_seconds : Nat) :
    (init V max_size ttl_seconds).WF := by
  refine ⟨List.nodup_nil, List.nodup_nil, ?_, ?_⟩ <;> simp [init, Assoc.keys]

/-- The key stored by `set` is found afterwards, with expiry `now + ttl`. -/
theorem set_find_self (c : KnowledgeCache V) (now : Nat) (k : String) (v : V)
    (ttl : Option Nat) :
    Assoc.find (c.set now k v ttl).cache k =
      some (v, now + orDefault ttl c.ttl) := by
  by_cases h : c.cache.length ≥ c.max_size
  · calc Assoc.find (c.set now k v ttl).cache k
        = Assoc.find ((c.evictLRU).cache.insert k
            (v, now + orDefault ttl (c.evictLRU).ttl)) k := by
          rw [set_eq_of_ge now k v ttl h]
      _ = some (v, now + orDefault ttl (c.evictLRU).ttl) :=
          Assoc.find_insert_self _ k _
      _ = some (v, now + orDefault ttl c.ttl) := by rw [evictLRU_ttl]
  · calc Assoc.find (c.set now k v ttl).cache k
        = Assoc.find (c.cache.insert k (v, now + orDefault ttl c.ttl)) k := by
          rw [set_eq_of_lt now k v ttl (Nat.not_le.mp h)]
      _ = some (v, now + orDefault ttl c.ttl) := Assoc.find_insert_self _ k _

/-- Filling a well-formed cache with fresh distinct keys: the size follows
`min (old + inserted) max_size`. -/
theorem setAll_length : ∀ (ks : List String) (c : KnowledgeCache V)
    (now : Nat) (v : V), c.WF → 0 < c.max_size → ks.Nodup →
    (∀ k ∈ ks, k ∉ Assoc.keys c.cache) →
    (c.setAll now ks v).cache.length =
      min (c.cache.length + ks.length) c.max_size := by
  intro ks
  induction ks with
  | nil =>
    intro c now v hwf hpos _ _
    show c.cache.length = min (c.cache.length + 0) c.max_size
    have := hwf.size_le
    omega
  | cons k ks ih =>
    intro c now v hwf hpos hnd hnew
    rw [List.nodup_cons] at hnd
    have hk : k ∉ Assoc.keys c.cache := hnew k (List.mem_cons_self _ _)
    have hstep := set_length_new now k v none hwf hpos hk
    have hwf' := set_wf now k v none hwf hpos
    have hpos' : 0 < (c.set now k v none).max_size := by
      rw [set_max_size]
      exact hpos
    have hnew' : ∀ j ∈ ks, j ∉ Assoc.keys (c.set now k v none).cache := by
      intro j hj hc
      rcases set_keys_subset now k v none hwf hpos j hc with hmem | rfl
      · exact hnew j (List.mem_cons_of_mem _ hj) hmem
      · exact hnd.1 hj
    have hrec := ih (c.set now k v none) now v hwf' hpos' hnd.2 hnew'
    show ((c.set now k v none).setAll now ks v).cache.length = _
    rw [hrec, hstep, set_max_size]
    simp only [List.length_cons]
    omega

end KnowledgeCache

/-! ## C4, C5, C9: the bounded TTL/LRU cache -/

/-- C4: after any `set` on a well-formed bounded cache the entry count stays
within `max_size`; when `set` hits a cache at capacity, the entry removed
before insertion is one whose last-access timestamp is minimal; and
`set`ting `max_size + 1` distinct keys into a fresh cache leaves exactly
`max_size` entries. -/
theorem knowledgeCache_set_bound {V : Type} (c : KnowledgeCache V)
    (now : Nat) (k : String) (v : V) (ttl : Option Nat)
    (hwf : c.WF) (hpos : 0 < c.max_size) :
    (c.set now k v ttl).cache.length ≤ c.max_size ∧
    (c.cache.length = c.max_size →
      ∃ lru, minBySnd c.access_times = some lru ∧ lru ∈ c.access_times ∧
        (∀ p ∈ c.access_times, lru.2 ≤ p.2) ∧
        c.set now k v ttl =
          { c with
              cache := (c.cache.erase lru.1).insert k
                (v, now + orDefault ttl c.ttl),
              access_times := (c.access_times.erase lru.1).insert k now }) ∧
    (∀ (ks : List String) (v' : V), ks.Nodup → ks.length = c.max_size + 1 →
      ((KnowledgeCache.init V c.max_size c.ttl).setAll now ks v').cache.length
        = c.max_size) := by
  refine ⟨?_, ?_, ?_⟩
  · have h1 := (KnowledgeCache.set_wf now k v ttl hwf hpos).size_le
    rwa [KnowledgeCache.set_max_size] at h1
  · intro hlen
    have hge : c.cache.length ≥ c.max_size := by omega
    obtain ⟨lru, h1, h2, h3, _, heq⟩ :=
      KnowledgeCache.evictLRU_spec hwf
        (KnowledgeCache.cache_ne_nil_of_full hpos hge)
    refine ⟨lru, h1, h2, h3, ?_⟩
    rw [KnowledgeCache.set_eq_of_ge now k v ttl hge, heq]
  · intro ks v' hnd hks
    have h0 := KnowledgeCache.setAll_length ks
      (KnowledgeCache.init V c.max_size c.ttl) now v'
      (KnowledgeCache.init_wf V c.max_size c.ttl) hpos hnd
      (by intro j hj hc; simp [KnowledgeCache.init, Assoc.keys] at hc)
    rw [h0]
    show min (List.length [] + ks.length) c.max_size = c.max_size
    simp only [List.length_nil]
    omega

/-- Witness for C4 on a concrete cache of capacity 2. -/
theorem knowledgeCache_set_bound_witness :
    (((KnowledgeCache.init Nat 2 10).set 0 "a" 5 none).cache.length ≤ 2) ∧
    (((KnowledgeCache.init Nat 2 10).setAll 0 ["a", "b", "c"] 7).cache.length
      = 2) := by
  have h := knowledgeCache_set_bound (KnowledgeCache.init Nat 2 10) 0 "a" 5
    none (KnowledgeCache.init_wf Nat 2 10) (by decide)
  exact ⟨h.1, h.2.2 ["a", "b", "c"] 7 (by decide) (by decide)⟩

/-- C5: a `set` entry is immediately visible to `get`; a stored entry is
returned exactly while `now` is strictly below its expiry, and once the
expiry is reached `get` returns `None` and removes the entry from both
dicts. -/
theorem knowledgeCache_get_set {V : Type} (c : KnowledgeCache V) (now : Nat)
    (k : String) (v : V) (ttl : Option Nat) (httl : 0 < c.ttl) :
    (((c.set now k v ttl).get now k).1 = some v) ∧
    (∀ v' e, c.cache.find k = some (v', e) →
      (now < e → (c.get now k).1 = some v') ∧
      (e ≤ now → (c.get now k).1 = none ∧
        Assoc.find ((c.get now k).2).cache k = none ∧
        Assoc.find ((c.get now k).2).access_times k = none)) := by
  constructor
  · have hfind := KnowledgeCache.set_find_self c now k v ttl
    have hpos : 0 < orDefault ttl c.ttl := by
      cases ttl with
      | none => exact httl
      | some t =>
        show 0 < if t = 0 then c.ttl else t
        by_cases ht : t = 0
        · rw [if_pos ht]; exact httl
        · rw [if_neg ht]; omega
    rw [KnowledgeCache.get_eq_hit hfind (by omega)]
  · intro v' e hf
    constructor
    · intro hlt
      rw [KnowledgeCache.get_eq_hit hf hlt]
    · intro hge
      rw [KnowledgeCache.get_eq_expired hf hge]
      exact ⟨rfl, Assoc.find_erase_self c.cache k,
             Assoc.find_erase_self c.access_times k⟩

/-- Witness for C5: set-then-get on a fresh cache, and lazy expiry of a
concrete stored entry. -/
theorem knowledgeCache_get_set_witness :
    ((((KnowledgeCache.init Nat 100 60).set 5 "k" 42 none).get 5 "k").1
      = some 42) ∧
    (((⟨[("k", (42, 65))], 100, 60, [("k", 5)]⟩ : KnowledgeCache Nat).get
        70 "k").1 = none) := by
  refine ⟨(knowledgeCache_get_set (KnowledgeCache.init Nat 100 60) 5 "k" 42
    none (by decide)).1, ?_⟩
  have h := (knowledgeCache_get_set
    (⟨[("k", (42, 65))], 100, 60, [("k", 5)]⟩ : KnowledgeCache Nat) 70 "k"
    0 none (by decide)).2 42 65 (by decide)
  exact (h.2 (by decide)).1

/-- C9: `set` on a full cache evicts the LRU entry even when the key being
written is already present; when the evicted key differs from it, the
update drops that other entry and the cache shrinks to `max_size - 1`. -/
theorem knowledgeCache_set_existing_shrinks {V : Type} (c : KnowledgeCache V)
    (now : Nat) (k : String) (v : V) (ttl : Option Nat) (lru : String × Nat)
    (hwf : c.WF) (hpos : 0 < c.max_size)
    (hfull : c.cache.length = c.max_size)
    (hk : k ∈ Assoc.keys c.cache)
    (hlru : minBySnd c.access_times = some lru)
    (hne : lru.1 ≠ k) :
    (c.set now k v ttl).cache.length = c.max_size - 1 ∧
    Assoc.find (c.set now k v ttl).cache lru.1 = none ∧
    Assoc.find (c.set now k v ttl).cache k =
      some (v, now + orDefault ttl c.ttl) := by
  have hge : c.cache.length ≥ c.max_size := by omega
  obtain ⟨lru', h1, _, _, hmem', heq⟩ :=
    KnowledgeCache.evictLRU_spec hwf
      (KnowledgeCache.cache_ne_nil_of_full hpos hge)
  rw [hlru] at h1
  have he : lru' = lru := by
    injection h1 with h1
    exact h1.symm
  rw [he] at heq hmem'
  have hkmem : k ∈ Assoc.keys (c.cache.erase lru.1) :=
    Assoc.mem_keys_erase.mpr ⟨hk, fun he => hne he.symm⟩
  refine ⟨?_, ?_, KnowledgeCache.set_find_self c now k v ttl⟩
  · have hcalc :
        (c.set now k v ttl).cache.length =
          ((c.cache.erase lru.1).insert k
            (v, now + orDefault ttl c.ttl)).length := by
      rw [KnowledgeCache.set_eq_of_ge now k v ttl hge, heq]
    rw [hcalc, Assoc.length_insert_of_mem _ hkmem]
    have herase := Assoc.length_erase_of_mem hwf.nodup_cache hmem'
    omega
  · have hcalc :
        Assoc.find (c.set now k v ttl).cache lru.1 =
          Assoc.find ((c.cache.erase lru.1).insert k
            (v, now + orDefault ttl c.ttl)) lru.1 := by
      rw [KnowledgeCache.set_eq_of_ge now k v ttl hge, heq]
    rw [hcalc, Assoc.find_insert_of_ne _ hne, Assoc.find_erase_self]

/-- Witness for C9: a concrete full cache of capacity 2 where updating the
fresher key `"b"` silently drops `"a"` and shrinks the cache to one entry. -/
theorem knowledgeCache_set_existing_shrinks_witness :
    ((⟨[("a", (1, 100)), ("b", (2, 100))], 2, 50,
        [("a", 0), ("b", 1)]⟩ : KnowledgeCache Nat).set 9 "b" 7
        none).cache.length = 1 ∧
    Assoc.find ((⟨[("a", (1, 100)), ("b", (2, 100))], 2, 50,
        [("a", 0), ("b", 1)]⟩ : KnowledgeCache Nat).set 9 "b" 7
        none).cache "a" = none := by
  have h := knowledgeCache_set_existing_shrinks
    (⟨[("a", (1, 100)), ("b", (2, 100))], 2, 50,
      [("a", 0), ("b", 1)]⟩ : KnowledgeCache Nat)
    9 "b" 7 none ("a", 0)
    ⟨by decide, by decide, fun j => Iff.rfl, by decide⟩
    (by decide) (by decide) (by decide) (by decide) (by decide)
  exact ⟨h.1, h.2.1⟩

/-! ## C6, C7: the token-bucket rate limiter -/

/-- C6: a fresh limiter with burst `B` admits a single `acquire B` with zero
wait, emptying the bucket; an `acquire 1` issued immediately afterwards
returns the positive wait `(1 - tokens) * (per / rate)` and deducts
nothing; and in general each `acquire` first refills by
`elapsed * (rate / per)` capped at `burst`, then deducts and returns zero
wait when enough tokens are available, else returns the shortfall wait
without deducting. -/
theorem rateLimiter_acquire_behaviour (rate per B t0 : ℚ)
    (hrate : 0 < rate) (hper : 0 < per) (hB : 0 < B) :
    (RateLimiter.init rate per B t0).acquire t0 B =
      (0, (⟨rate, per, B, 0, t0⟩ : RateLimiter)) ∧
    ((⟨rate, per, B, 0, t0⟩ : RateLimiter).acquire t0 1 =
      ((1 - (0 : ℚ)) * (per / rate), (⟨rate, per, B, 0, t0⟩ : RateLimiter)) ∧
     0 < (1 - (0 : ℚ)) * (per / rate)) ∧
    (∀ (rl : RateLimiter) (now cost : ℚ),
      (cost ≤ min rl.burst
          (rl.tokens + (now - rl.last_refill) * (rl.rate / rl.per)) →
        rl.acquire now cost =
          (0, { rl with
                  tokens := min rl.burst (rl.tokens +
                    (now - rl.last_refill) * (rl.rate / rl.per)) - cost,
                  last_refill := now })) ∧
      (min rl.burst
          (rl.tokens + (now - rl.last_refill) * (rl.rate / rl.per)) < cost →
        rl.acquire now cost =
          ((cost - min rl.burst (rl.tokens +
              (now - rl.last_refill) * (rl.rate / rl.per))) *
            (rl.per / rl.rate),
           { rl with
               tokens := min rl.burst (rl.tokens +
                 (now - rl.last_refill) * (rl.rate / rl.per)),
               last_refill := now }))) := by
  refine ⟨?_, ⟨?_, ?_⟩, ?_⟩
  · simp [RateLimiter.acquire, RateLimiter.init, sub_self, zero_mul,
      add_zero, min_self]
  · simp [RateLimiter.acquire, sub_self, zero_mul, add_zero,
      min_eq_right hB.le, zero_lt_one]
  · rw [sub_zero, one_mul]
    exact div_pos hper hrate
  · intro rl now cost
    constructor
    · intro h
      simp only [RateLimiter.acquire]
      rw [if_neg (not_lt.mpr h)]
    · intro h
      simp only [RateLimiter.acquire]
      rw [if_pos h]

/-- Witness for C6 with the repository's parameters
(`rate=20, per=60, burst=30`). -/
theorem rateLimiter_acquire_behaviour_witness :
    (RateLimiter.init 20 60 30 0).acquire 0 30 =
      (0, (⟨20, 60, 30, 0, 0⟩ : RateLimiter)) ∧
    (⟨20, 60, 30, 0, 0⟩ : RateLimiter).acquire 0 1 =
      ((1 - (0 : ℚ)) * (60 / 20), (⟨20, 60, 30, 0, 0⟩ : RateLimiter)) := by
  have h := rateLimiter_acquire_behaviour 20 60 30 0 (by norm_num)
    (by norm_num) (by norm_num)
  exact ⟨h.1, h.2.1.1⟩

/-- C7: with positive rate parameters, a non-negative cost and a
non-decreasing clock, `0 ≤ tokens ≤ burst` holds after `acquire`
(and at construction): the refill is capped at `burst` and deduction only
happens when the full cost is available. -/
theorem rateLimiter_tokens_invariant (rl : RateLimiter) (now cost : ℚ)
    (hrate : 0 < rl.rate) (hper : 0 < rl.per) (hburst : 0 ≤ rl.burst)
    (hlo : 0 ≤ rl.tokens) (hhi : rl.tokens ≤ rl.burst)
    (hclock : rl.last_refill ≤ now) (hcost : 0 ≤ cost) :
    (0 ≤ (rl.acquire now cost).2.tokens ∧
      (rl.acquire now cost).2.tokens ≤ (rl.acquire now cost).2.burst) ∧
    (∀ rate per burst t0 : ℚ, 0 ≤ burst →
      0 ≤ (RateLimiter.init rate per burst t0).tokens ∧
      (RateLimiter.init rate per burst t0).tokens ≤
        (RateLimiter.init rate per burst t0).burst) := by
  have hrp : (0 : ℚ) ≤ rl.rate / rl.per := le_of_lt (div_pos hrate hper)
  have helapsed : (0 : ℚ) ≤ now - rl.last_refill := sub_nonneg.mpr hclock
  have hx0 : (0 : ℚ) ≤ rl.tokens + (now - rl.last_refill) * (rl.rate / rl.per) :=
    add_nonneg hlo (mul_nonneg helapsed hrp)
  have hmin0 : (0 : ℚ) ≤ min rl.burst
      (rl.tokens + (now - rl.last_refill) * (rl.rate / rl.per)) :=
    le_min hburst hx0
  have hminburst : min rl.burst
      (rl.tokens + (now - rl.last_refill) * (rl.rate / rl.per)) ≤ rl.burst :=
    min_le_left _ _
  refine ⟨?_, ?_⟩
  · simp only [RateLimiter.acquire]
    split
    case isTrue h => exact ⟨hmin0, hminburst⟩
    case isFalse h =>
      have hge : cost ≤ min rl.burst
          (rl.tokens + (now - rl.last_refill) * (rl.rate / rl.per)) :=
        not_lt.mp h
      constructor
      · show (0 : ℚ) ≤ min rl.burst
          (rl.tokens + (now - rl.last_refill) * (rl.rate / rl.per)) - cost
        linarith
      · show min rl.burst
          (rl.tokens + (now - rl.last_refill) * (rl.rate / rl.per)) - cost
          ≤ rl.burst
        linarith
  · intro rate per burst t0 hb
    exact ⟨hb, le_refl _⟩

/-- Witness for C7 at the repository's limiter parameters. -/
theorem rateLimiter_tokens_invariant_witness :
    0 ≤ ((RateLimiter.init 20 60 30 0).acquire 2 3).2.tokens ∧
    ((RateLimiter.init 20 60 30 0).acquire 2 3).2.tokens ≤
      ((RateLimiter.init 20 60 30 0).acquire 2 3).2.burst := by
  exact (rateLimiter_tokens_invariant (RateLimiter.init 20 60 30 0) 2 3
    (by norm_num [RateLimiter.init]) (by norm_num [RateLimiter.init])
    (by norm_num [RateLimiter.init]) (by norm_num [RateLimiter.init])
    (by norm_num [RateLimiter.init]) (by norm_num [RateLimiter.init])
    (by norm_num)).1

/-! ## C1: the knowledge aggregator's selection policy -/

theorem retrieveKnowledge_eq (wikiRes kbRes : Except String (String × String)) :
    retrieveKnowledge wikiRes kbRes =
      if (providerResult kbRes).2 ≠ "" then providerResult kbRes
      else if (providerResult wikiRes).2 ≠ "" then providerResult wikiRes
      else ("", "") := rfl

/-- C1: with both provider tasks finished before the deadline, the
aggregator returns the static knowledge-base result whenever its text is
non-empty (even when the Wikipedia text is also non-empty), else the
Wikipedia result, else `("", "")`; a provider that raises contributes
exactly like one returning empty, so the aggregator never propagates a
provider failure. -/
theorem retrieveKnowledge_selection
    (wikiRes kbRes : Except String (String × String)) :
    ((providerResult kbRes).2 ≠ "" →
      retrieveKnowledge wikiRes kbRes = providerResult kbRes) ∧
    ((providerResult kbRes).2 = "" → (providerResult wikiRes).2 ≠ "" →
      retrieveKnowledge wikiRes kbRes = providerResult wikiRes) ∧
    ((providerResult kbRes).2 = "" → (providerResult wikiRes).2 = "" →
      retrieveKnowledge wikiRes kbRes = ("", "")) ∧
    (∀ e, retrieveKnowledge wikiRes (Except.error e) =
      retrieveKnowledge wikiRes (Except.ok ("", ""))) ∧
    (∀ e, retrieveKnowledge (Except.error e) kbRes =
      retrieveKnowledge (Except.ok ("", "")) kbRes) := by
  refine ⟨?_, ?_, ?_, fun e => rfl, fun e => rfl⟩
  · intro h
    rw [retrieveKnowledge_eq, if_pos h]
  · intro h1 h2
    rw [retrieveKnowledge_eq, if_neg (by simpa using h1), if_pos h2]
  · intro h1 h2
    rw [retrieveKnowledge_eq, if_neg (by simpa using h1),
      if_neg (by simpa using h2)]

/-- Witness for C1: both providers succeed with non-empty text and the
static knowledge-base result wins. -/
theorem retrieveKnowledge_selection_witness :
    retrieveKnowledge (Except.ok ("Wiki", "wiki text"))
      (Except.ok ("Kb", "kb text")) = ("Kb", "kb text") :=
  (retrieveKnowledge_selection (Except.ok ("Wiki", "wiki text"))
    (Except.ok ("Kb", "kb text"))).1 (by decide)

/-! ## C2: generation-client fallback after exhausted retries -/

/-- When every attempt fails, the retry loop ends scanning the fallback
table against the message, raising `LLMError` with the last error when no
keyword matches. -/
theorem chatLoop_all_fail (message e : String) :
    ∀ (attempts : List (Except String String)),
      (∀ a ∈ attempts, ∃ err, a = Except.error err) →
      attempts.getLast? = some (Except.error e) →
      chatLoop message attempts =
        match findFallback message with
        | some kv => Except.ok kv.2
        | none => Except.error (chatError e) := by
  intro attempts
  induction attempts with
  | nil => intro _ hlast; simp at hlast
  | cons a rest ih =>
    intro hfail hlast
    obtain ⟨err, rfl⟩ := hfail a (List.mem_cons_self _ _)
    cases rest with
    | nil =>
      have he : err = e := by
        rw [List.getLast?_singleton] at hlast
        injection hlast with h
        injection h
      subst he
      rfl
    | cons b restb =>
      have hlast' : (b :: restb).getLast? = some (Except.error e) := by
        rw [← List.getLast?_cons_cons]
        exact hlast
      show chatLoop message (b :: restb) = _
      exact ih (fun x hx => hfail x (List.mem_cons_of_mem _ hx)) hlast'

/-- C2: when the response cache misses (or holds only the falsy empty
string) and every upstream attempt fails, `chat` returns exactly the
configured fallback text of the first fallback keyword contained in the
lowercased message, and raises a generation error precisely when no
fallback keyword occurs in the message. -/
theorem cohereChat_fallback (cached : Option String) (message e : String)
    (attempts : List (Except String String))
    (hcache : ∀ s, cached = some s → s = "")
    (hfail : ∀ a ∈ attempts, ∃ err, a = Except.error err)
    (hlast : attempts.getLast? = some (Except.error e)) :
    (∀ kv, findFallback message = some kv →
      kv ∈ fallbackResponses ∧ strContains (pyLower message) kv.1 = true ∧
      cohereChat cached message attempts = Except.ok kv.2) ∧
    (findFallback message = none ↔
      cohereChat cached message attempts = Except.error (chatError e)) ∧
    (findFallback message = none ↔
      ∀ kv ∈ fallbackResponses, strContains (pyLower message) kv.1 = false) := by
  have hchat : cohereChat cached message attempts = chatLoop message attempts := by
    cases cached with
    | none => rfl
    | some s =>
      have hs : s = "" := hcache s rfl
      subst hs
      simp [cohereChat]
  have hloop := chatLoop_all_fail message e attempts hfail hlast
  refine ⟨?_, ?_, ?_⟩
  · intro kv hkv
    have hkv' : fallbackResponses.find?
        (fun p => strContains (pyLower message) p.1) = some kv := hkv
    refine ⟨List.mem_of_find?_eq_some hkv', ?_, ?_⟩
    · have hp := List.find?_some hkv'
      simpa using hp
    · rw [hchat, hloop, hkv]
  · constructor
    · intro hnone
      rw [hchat, hloop, hnone]
    · intro herr
      cases hkv : findFallback message with
      | none => rfl
      | some kv =>
        rw [hchat, hloop, hkv] at herr
        exact absurd herr (by simp)
  · unfold findFallback
    rw [List.find?_eq_none]
    constructor
    · intro h kv hkv
      have := h kv hkv
      simpa using this
    · intro h kv hkv
      simp [h kv hkv]

/-- Witness for C2: a message containing the keyword `sport`, with the
single upstream attempt failing, yields exactly the configured sport
fallback text. -/
theorem cohereChat_fallback_witness :
    cohereChat none "tell me about sport" [Except.error "boom"] =
      Except.ok "I know that sports are a popular topic. However, I\x27m having trouble accessing my knowledge services right now. Sports include activities like football, basketball, cricket, tennis, and many others with different rules, competitions, and famous athletes." := by
  have h := (cohereChat_fallback none "tell me about sport" "boom"
    [Except.error "boom"]
    (fun s hs => Option.noConfusion hs)
    (fun a ha => by
      rw [List.mem_singleton] at ha
      exact ⟨"boom", ha⟩)
    rfl).1
    ("sport",
     "I know that sports are a popular topic. However, I\x27m having trouble accessing my knowledge services right now. Sports include activities like football, basketball, cricket, tennis, and many others with different rules, competitions, and famous athletes.")
    (by rfl)
  exact h.2.2

/-! ## C3: session response-cache hits -/

theorem string_append_ne_empty {a : String} (b : String) (ha : a ≠ "") :
    a ++ b ≠ "" := by
  intro hc
  apply ha
  have hd : a.data ++ b.data = ([] : List Char) := by
    rw [← String.data_append, hc]
  exact String.ext (List.append_eq_nil.mp hd).1

/-- `_post_process_response` never returns the empty string, so every value
stored in the session response cache is truthy. -/
theorem postProcessResponse_ne_empty (response message title : String) :
    postProcessResponse response message title ≠ "" := by
  unfold postProcessResponse
  split
  · simp
  · split
    case isTrue hresp h =>
      exact string_append_ne_empty _
        (string_append_ne_empty _ (string_append_ne_empty _ hresp))
    case isFalse hresp h =>
      exact hresp

/-- A freshly `set` session-cache entry with a non-zero TTL is a hit for any
lookup strictly before its expiry. -/
theorem ttlCache_get_set_self (c : TTLCache) (now1 now2 : Nat)
    (key v : String) (t : Nat) (ht : t ≠ 0) (hlt : now2 < now1 + t) :
    (c.set now1 key v (some t)).get now2 key =
      (some v, c.set now1 key v (some t)) := by
  have hfind : Assoc.find (c.set now1 key v (some t)).cache key =
      some (v, now1 + t) := by
    show Assoc.find (c.cache.insert key (v, now1 + orDefault (some t) c.ttl)) key
      = some (v, now1 + t)
    rw [Assoc.find_insert_self]
    show some (v, now1 + if t = 0 then c.ttl else t) = some (v, now1 + t)
    rw [if_neg ht]
  unfold TTLCache.get
  rw [hfind]
  simp [hlt]

/-- `process_message` on the truthy-cache-hit path. -/
theorem processMessage_hit_eq (st : ChatState) (now : Nat) (message r : String)
    (knowledge : Option (String × String))
    (attempts : List (Except String String))
    (hget : (st.queryCache.get now (normalizeMessage message)).1 = some r)
    (hr : r ≠ "") :
    processMessage st now message knowledge attempts =
      (r,
       { st with
           history := st.history ++ [("user", message), ("assistant", r)],
           queryCache := (st.queryCache.get now (normalizeMessage message)).2 },
       0) := by
  simp only [processMessage]
  rw [hget]
  simp [hr]

/-- `process_message` on the cache-miss path (no entry, or a falsy cached
empty string). -/
theorem processMessage_miss_eq (st : ChatState) (now : Nat) (message : String)
    (knowledge : Option (String × String))
    (attempts : List (Except String String))
    (hmiss : (st.queryCache.get now (normalizeMessage message)).1 = none ∨
             (st.queryCache.get now (normalizeMessage message)).1 = some "") :
    processMessage st now message knowledge attempts =
      processMessageMiss st (st.queryCache.get now (normalizeMessage message)).2
        now message (normalizeMessage message)
        (knowledgeOrEmpty knowledge).1 (knowledgeOrEmpty knowledge).2
        attempts := by
  simp only [processMessage]
  rcases hmiss with h | h
  · rw [h]
  · rw [h]
    simp

/-- The components of the miss path: the final response is the
post-processed generation (or fallback) text, and it is cached under the
normalized message with the category-selected TTL. -/
theorem processMessageMiss_spec (st : ChatState) (cache : TTLCache)
    (now : Nat) (message normalized title info : String)
    (attempts : List (Except String String)) :
    processMessageMiss st cache now message normalized title info attempts =
      (postProcessResponse (generationLoop attempts
          (createFallbackResponse st.fallbackKnowledge message title info)).1
          message title,
       { st with
           history := st.history ++ [("user", message),
             ("assistant", postProcessResponse (generationLoop attempts
               (createFallbackResponse st.fallbackKnowledge message title
                 info)).1 message title)],
           queryCache := cache.set now normalized
             (postProcessResponse (generationLoop attempts
               (createFallbackResponse st.fallbackKnowledge message title
                 info)).1 message title)
             (some (if analyzeQuestionType normalized = "factual" ∨
                 analyzeQuestionType normalized = "knowledge"
                 then 86400 else 3600)) },
       (generationLoop attempts (createFallbackResponse st.fallbackKnowledge
         message title info)).2) := rfl

/-- C3: after a message is processed on the cache-miss path, re-sending any
message with the same normalized form within the cached entry's TTL
returns the first response byte-identically, appends both the user turn
and the cached assistant turn to the history, and performs zero
generation-client calls. -/
theorem processMessage_cache_hit (st : ChatState) (t1 t2 : Nat)
    (msg1 msg2 : String) (kn1 kn2 : Option (String × String))
    (att1 att2 : List (Except String String))
    (hmiss : (st.queryCache.get t1 (normalizeMessage msg1)).1 = none ∨
             (st.queryCache.get t1 (normalizeMessage msg1)).1 = some "")
    (hsame : normalizeMessage msg2 = normalizeMessage msg1)
    (httl : t2 < t1 +
      (if analyzeQuestionType (normalizeMessage msg1) = "factual" ∨
          analyzeQuestionType (normalizeMessage msg1) = "knowledge"
       then 86400 else 3600)) :
    (processMessage (processMessage st t1 msg1 kn1 att1).2.1 t2 msg2 kn2
        att2).1 = (processMessage st t1 msg1 kn1 att1).1 ∧
    (processMessage (processMessage st t1 msg1 kn1 att1).2.1 t2 msg2 kn2
        att2).2.2 = 0 ∧
    (processMessage (processMessage st t1 msg1 kn1 att1).2.1 t2 msg2 kn2
        att2).2.1.history =
      (processMessage st t1 msg1 kn1 att1).2.1.history ++
        [("user", msg2), ("assistant", (processMessage st t1 msg1 kn1 att1).1)] := by
  have hT0 : (if analyzeQuestionType (normalizeMessage msg1) = "factual" ∨
      analyzeQuestionType (normalizeMessage msg1) = "knowledge"
      then 86400 else 3600 : Nat) ≠ 0 := by
    split <;> simp
  set F := postProcessResponse (generationLoop att1
    (createFallbackResponse st.fallbackKnowledge msg1
      (knowledgeOrEmpty kn1).1 (knowledgeOrEmpty kn1).2)).1
    msg1 (knowledgeOrEmpty kn1).1 with hF
  set T : Nat := (if analyzeQuestionType (normalizeMessage msg1) = "factual" ∨
      analyzeQuestionType (normalizeMessage msg1) = "knowledge"
      then 86400 else 3600) with hT
  set C := (st.queryCache.get t1 (normalizeMessage msg1)).2 with hC
  set st1 : ChatState :=
    ⟨st.history ++ [("user", msg1), ("assistant", F)],
     C.set t1 (normalizeMessage msg1) F (some T),
     st.fallbackKnowledge⟩ with hst1
  have hE1 : processMessage st t1 msg1 kn1 att1 =
      (F, st1,
       (generationLoop att1 (createFallbackResponse st.fallbackKnowledge msg1
         (knowledgeOrEmpty kn1).1 (knowledgeOrEmpty kn1).2)).2) := by
    rw [processMessage_miss_eq st t1 msg1 kn1 att1 hmiss,
      processMessageMiss_spec]
  have hhit := ttlCache_get_set_self C t1 t2 (normalizeMessage msg1) F T
    hT0 httl
  have hget : ((st1.queryCache.get t2 (normalizeMessage msg2)).1) = some F := by
    show (((C.set t1 (normalizeMessage msg1) F (some T)).get t2
      (normalizeMessage msg2)).1) = some F
    rw [hsame, hhit]
  have hFne : F ≠ "" := postProcessResponse_ne_empty _ _ _
  have h2 := processMessage_hit_eq st1 t2 msg2 F kn2 att2 hget hFne
  rw [hE1]
  show (processMessage st1 t2 msg2 kn2 att2).1 = F ∧
      (processMessage st1 t2 msg2 kn2 att2).2.2 = 0 ∧
      (processMessage st1 t2 msg2 kn2 att2).2.1.history =
        st1.history ++ [("user", msg2), ("assistant", F)]
  rw [h2]
  exact ⟨rfl, rfl, rfl⟩

/-- Witness for C3: the same message sent twice on a fresh session returns
the identical text and makes no generation call the second time. -/
theorem processMessage_cache_hit_witness :
    (processMessage
        (processMessage ⟨[], TTLCache.init 3600, []⟩ 0 "hello world" none
          [Except.ok "Hi there!"]).2.1
        1 "hello world" none [Except.ok "something else"]).1 =
      (processMessage ⟨[], TTLCache.init 3600, []⟩ 0 "hello world" none
        [Except.ok "Hi there!"]).1 ∧
    (processMessage
        (processMessage ⟨[], TTLCache.init 3600, []⟩ 0 "hello world" none
          [Except.ok "Hi there!"]).2.1
        1 "hello world" none [Except.ok "something else"]).2.2 = 0 := by
  have h := processMessage_cache_hit ⟨[], TTLCache.init 3600, []⟩ 0 1
    "hello world" "hello world" none none [Except.ok "Hi there!"]
    [Except.ok "something else"] (Or.inl rfl) rfl (by decide)
  exact ⟨h.1, h.2.1⟩

/-! ## C10: truthiness-based cache checks in the Wikipedia service -/

namespace KnowledgeCache

theorem get_ttl_field {V : Type} (c : KnowledgeCache V) (now : Nat)
    (key : String) : ((c.get now key).2).ttl = c.ttl := by
  cases hf : c.cache.find key with
  | none => rw [get_eq_miss hf]
  | some ve =>
    obtain ⟨v, e⟩ := ve
    by_cases h : now < e
    · rw [get_eq_hit hf h]
    · rw [get_eq_expired hf (Nat.le_of_not_lt h)]

end KnowledgeCache

/-- A search with a cached empty result list proceeds to the upstream call
(the `if cached_result:` truthiness check treats `[]` as a miss). -/
theorem wikiSearch_cached_empty (cache : KnowledgeCache WikiVal) (now : Nat)
    (query : String) (limit : Nat) (up : Option (List String))
    (hq : ¬(query = "" ∨ pyStripStr query = ""))
    (hc : (cache.get now
        ("search_" ++ cleanQuery query ++ "_" ++ toString limit)).1 =
      some (WikiVal.searchRes [])) :
    (wikiSearch cache now query limit up).2.2 = true := by
  simp only [wikiSearch]
  rw [if_neg hq, hc]
  cases up <;> simp

/-- A search that misses cleanly and gets an empty upstream result stores
the empty list in the cache. -/
theorem wikiSearch_miss_empty_upstream (cache : KnowledgeCache WikiVal)
    (now : Nat) (query : String) (limit : Nat)
    (hq : ¬(query = "" ∨ pyStripStr query = ""))
    (hc : (cache.get now
        ("search_" ++ cleanQuery query ++ "_" ++ toString limit)).1 = none) :
    wikiSearch cache now query limit (some []) =
      ([],
       ((cache.get now
          ("search_" ++ cleanQuery query ++ "_" ++ toString limit)).2).set now
         ("search_" ++ cleanQuery query ++ "_" ++ toString limit)
         (WikiVal.searchRes []) none,
       true) := by
  simp only [wikiSearch]
  rw [if_neg hq, hc]
  rfl

/-- C10: the Wikipedia service's truthiness cache checks treat a stored
empty search list or empty summary string as a miss, so a query whose
search produced an empty result is re-sent upstream on every repetition
even though the empty result was stored in the cache (and unexpired). -/
theorem wikiService_empty_result_not_served (cache : KnowledgeCache WikiVal)
    (now now2 : Nat) (query title : String) (limit sentences : Nat)
    (up2 : Option (List String)) (pf2 : PageFetch)
    (hq : ¬(query = "" ∨ pyStripStr query = ""))
    (ht : ¬(title = "" ∨ pyStripStr title = "")) :
    ((cache.get now
        ("search_" ++ cleanQuery query ++ "_" ++ toString limit)).1 =
        some (WikiVal.searchRes []) →
      (wikiSearch cache now query limit up2).2.2 = true) ∧
    ((cache.get now ("summary_" ++ title ++ "_" ++ toString sentences)).1 =
        some (WikiVal.summaryRes "") →
      (wikiGetPageSummary cache now title sentences pf2).2.2 = true) ∧
    ((cache.get now
        ("search_" ++ cleanQuery query ++ "_" ++ toString limit)).1 = none →
      now2 < now + cache.ttl →
      Assoc.find ((wikiSearch cache now query limit (some [])).2.1).cache
          ("search_" ++ cleanQuery query ++ "_" ++ toString limit) =
        some (WikiVal.searchRes [], now + cache.ttl) ∧
      (wikiSearch cache now query limit (some [])).2.2 = true ∧
      (wikiSearch (wikiSearch cache now query limit (some [])).2.1 now2
          query limit up2).2.2 = true) := by
  refine ⟨wikiSearch_cached_empty cache now query limit up2 hq, ?_, ?_⟩
  · intro hc
    simp only [wikiGetPageSummary]
    rw [if_neg ht, hc]
    simp only [ne_eq, not_true_eq_false, if_false]
    cases pf2 <;> rfl
  · intro hc hlt
    rw [wikiSearch_miss_empty_upstream cache now query limit hq hc]
    set key := "search_" ++ cleanQuery query ++ "_" ++ toString limit with hkey
    set c1 := (cache.get now key).2 with hc1
    have hfind : Assoc.find (c1.set now key (WikiVal.searchRes []) none).cache
        key = some (WikiVal.searchRes [], now + cache.ttl) := by
      have h0 := KnowledgeCache.set_find_self c1 now key
        (WikiVal.searchRes []) none
      rw [h0]
      show some (WikiVal.searchRes [], now + c1.ttl) = _
      rw [hc1, KnowledgeCache.get_ttl_field]
    refine ⟨hfind, rfl, ?_⟩
    have hhit := KnowledgeCache.get_eq_hit hfind
      (show now2 < now + cache.ttl from hlt)
    apply wikiSearch_cached_empty _ now2 query limit up2 hq
    rw [hhit]

/-- Witness for C10: a fresh service cache, the query `"sport"`, an empty
upstream search result; the second identical query still calls upstream. -/
theorem wikiService_empty_result_not_served_witness :
    (wikiSearch (KnowledgeCache.init WikiVal 500 86400) 0 "sport" 5
        (some [])).2.2 = true ∧
    (wikiSearch
        (wikiSearch (KnowledgeCache.init WikiVal 500 86400) 0 "sport" 5
          (some [])).2.1
        1 "sport" 5 (some ["Sport"])).2.2 = true := by
  have h := (wikiService_empty_result_not_served
    (KnowledgeCache.init WikiVal 500 86400) 0 1 "sport" "Sport" 5 5
    (some ["Sport"]) PageFetch.failure (by decide) (by decide)).2.2
    rfl (by decide)
  exact ⟨h.2.1, h.2.2⟩

/-! ## C8: the multi-paragraph summary construction -/

theorem string_length_data (s : String) : s.length = s.data.length := by
  cases s
  rfl

theorem string_length_append (a b : String) :
    (a ++ b).length = a.length + b.length := by
  cases a with
  | mk da =>
    cases b with
    | mk db =>
      show (da ++ db).length = da.length + db.length
      exact List.length_append da db

theorem pyTake_length (s : String) (n : Nat) :
    (pyTake s n).length = min n s.length := by
  show (s.data.take n).length = min n s.length
  rw [List.length_take, string_length_data]

theorem removeRefsAux_length_le : ∀ (fuel : Nat) (l : List Char),
    (removeRefsAux fuel l).length ≤ l.length := by
  intro fuel
  induction fuel with
  | zero => intro l; cases l <;> simp [removeRefsAux]
  | succ fuel ih =>
    intro l
    cases l with
    | nil => simp [removeRefsAux]
    | cons c cs =>
      simp only [removeRefsAux]
      split
      · cases hd : dropRef cs with
        | some rest =>
          have h1 := ih rest
          have h2 := dropRef_length hd
          simp only [List.length_cons]
          omega
        | none =>
          have h1 := ih cs
          simp only [List.length_cons]
          omega
      · have h1 := ih cs
        simp only [List.length_cons]
        omega

theorem collapseWSAux_length_le : ∀ (fuel : Nat) (l : List Char),
    (collapseWSAux fuel l).length ≤ l.length := by
  intro fuel
  induction fuel with
  | zero => intro l; cases l <;> simp [collapseWSAux]
  | succ fuel ih =>
    intro l
    cases l with
    | nil => simp [collapseWSAux]
    | cons c cs =>
      simp only [collapseWSAux]
      split
      · have h1 := ih (cs.dropWhile pyIsSpace)
        have h2 := length_dropWhile_le pyIsSpace cs
        simp only [List.length_cons]
        omega
      · have h1 := ih cs
        simp only [List.length_cons]
        omega

theorem stripSectionsAux_length_le : ∀ (fuel : Nat) (l : List Char),
    (stripSectionsAux fuel l).length ≤ l.length := by
  intro fuel
  induction fuel with
  | zero => intro l; cases l <;> simp [stripSectionsAux]
  | succ fuel ih =>
    intro l
    cases l with
    | nil => simp [stripSectionsAux]
    | cons c cs =>
      simp only [stripSectionsAux]
      split
      · cases hd : findClose (cs.drop 1) with
        | some rest =>
          have h1 := ih rest
          have h2 := findClose_length hd
          have h3 : (cs.drop 1).length ≤ cs.length := by
            rw [List.length_drop]
            omega
          simp only [List.length_cons]
          omega
        | none =>
          have h1 := ih cs
          simp only [List.length_cons]
          omega
      · have h1 := ih cs
        simp only [List.length_cons]
        omega

theorem pyStrip_length_le (l : List Char) : (pyStrip l).length ≤ l.length := by
  unfold pyStrip
  rw [List.length_reverse]
  calc ((l.dropWhile pyIsSpace).reverse.dropWhile pyIsSpace).length
      ≤ (l.dropWhile pyIsSpace).reverse.length :=
        length_dropWhile_le _ _
    _ = (l.dropWhile pyIsSpace).length := List.length_reverse _
    _ ≤ l.length := length_dropWhile_le _ _

/-- `_clean_content` never lengthens its input. -/
theorem cleanContent_length_le (s : String) :
    (cleanContent s).length ≤ s.length := by
  show (pyStrip (stripSections (collapseWS (removeRefs s.data)))).length ≤
    s.length
  rw [string_length_data]
  calc (pyStrip (stripSections (collapseWS (removeRefs s.data)))).length
      ≤ (stripSections (collapseWS (removeRefs s.data))).length :=
        pyStrip_length_le _
    _ ≤ (collapseWS (removeRefs s.data)).length :=
        stripSectionsAux_length_le _ _
    _ ≤ (removeRefs s.data).length := collapseWSAux_length_le _ _
    _ ≤ s.data.length := removeRefsAux_length_le _ _

/-- The content of the C8 counterexample: a single 1001-character
paragraph. -/
def c8Content : String := String.mk (List.replicate 1001 'a')

theorem string_mk_data (s : String) : String.mk s.data = s := by
  cases s
  rfl

theorem charsStartWith_head_ne {a c : Char} (ps cs : List Char)
    (hc : c ≠ a) : charsStartWith (a :: ps) (c :: cs) = false := by
  show (a == c && charsStartWith ps cs) = false
  rw [beq_eq_false_iff_ne.mpr (Ne.symm hc)]
  rfl

theorem pySplitSepAux_no_newline : ∀ (fuel : Nat) (l : List Char),
    (∀ c ∈ l, c ≠ '\n') →
    pySplitSepAux ['\n', '\n'] fuel l = [l] := by
  intro fuel
  induction fuel with
  | zero => intro l _; cases l <;> rfl
  | succ fuel ih =>
    intro l h
    cases l with
    | nil => rfl
    | cons c cs =>
      have hc : c ≠ '\n' := h c (List.mem_cons_self _ _)
      simp only [pySplitSepAux]
      rw [if_neg (by
        rw [charsStartWith_head_ne _ _ hc]
        simp)]
      rw [ih cs (fun d hd => h d (List.mem_cons_of_mem _ hd))]

theorem pySplitStr_no_newline (s : String) (h : ∀ c ∈ s.data, c ≠ '\n') :
    pySplitStr s "\n\n" = [s] := by
  show (pySplitSepAux ("\n\n").data s.data.length s.data).map String.mk = [s]
  have hd : ("\n\n").data = ['\n', '\n'] := rfl
  rw [hd, pySplitSepAux_no_newline _ _ h]
  show [String.mk s.data] = [s]
  rw [string_mk_data]

theorem c8Content_length : c8Content.length = 1001 := by
  rw [string_length_data]
  show (List.replicate 1001 'a').length = 1001
  rw [List.length_replicate]

theorem c8_no_newline : ∀ c ∈ c8Content.data, c ≠ '\n' := by
  intro c hc
  have ha : c = 'a' := List.eq_of_mem_replicate hc
  rw [ha]
  decide

theorem longParagraphs_c8 : longParagraphs c8Content = [c8Content] := by
  unfold longParagraphs
  rw [pySplitStr_no_newline _ c8_no_newline, List.filter_cons,
    if_pos (decide_eq_true (by rw [c8Content_length]; omega))]
  rfl

theorem joinedExtract_c8 : joinedExtract c8Content = c8Content := by
  unfold joinedExtract
  rw [longParagraphs_c8]
  show pyJoin "\n\n" ([c8Content].take (min 3 1)) = c8Content
  show pyJoin "\n\n" [c8Content] = c8Content
  show String.mk (List.intercalate ("\n\n").data [c8Content.data]) = c8Content
  rw [show List.intercalate ("\n\n").data [c8Content.data] = c8Content.data by
    simp [List.intercalate]]

theorem rawPageSummary_c8 :
    rawPageSummary c8Content "" = pyTake c8Content 1000 ++ "..." := by
  unfold rawPageSummary
  rw [if_pos (by rw [longParagraphs_c8]; simp), joinedExtract_c8,
    if_pos (by rw [c8Content_length]; omega)]

theorem dropWhile_all_false {p : Char → Bool} :
    ∀ {l : List Char}, (∀ c ∈ l, p c = false) → l.dropWhile p = l := by
  intro l h
  cases l with
  | nil => rfl
  | cons c cs =>
    simp [List.dropWhile, h c (List.mem_cons_self _ _)]

theorem removeRefsAux_id : ∀ (fuel : Nat) (l : List Char),
    (∀ c ∈ l, (c == '[') = false) → removeRefsAux fuel l = l := by
  intro fuel
  induction fuel with
  | zero => intro l _; cases l <;> rfl
  | succ fuel ih =>
    intro l h
    cases l with
    | nil => rfl
    | cons c cs =>
      simp only [removeRefsAux]
      rw [if_neg (by simp [h c (List.mem_cons_self _ _)])]
      rw [ih cs (fun d hd => h d (List.mem_cons_of_mem _ hd))]

theorem collapseWSAux_id : ∀ (fuel : Nat) (l : List Char),
    (∀ c ∈ l, pyIsSpace c = false) → collapseWSAux fuel l = l := by
  intro fuel
  induction fuel with
  | zero => intro l _; cases l <;> rfl
  | succ fuel ih =>
    intro l h
    cases l with
    | nil => rfl
    | cons c cs =>
      simp only [collapseWSAux]
      rw [if_neg (by simp [h c (List.mem_cons_self _ _)])]
      rw [ih cs (fun d hd => h d (List.mem_cons_of_mem _ hd))]

theorem stripSectionsAux_id : ∀ (fuel : Nat) (l : List Char),
    (∀ c ∈ l, c ≠ '=') → stripSectionsAux fuel l = l := by
  intro fuel
  induction fuel with
  | zero => intro l _; cases l <;> rfl
  | succ fuel ih =>
    intro l h
    cases l with
    | nil => rfl
    | cons c cs =>
      simp only [stripSectionsAux]
      rw [if_neg (by
        rw [charsStartWith_head_ne _ _ (h c (List.mem_cons_self _ _))]
        simp)]
      rw [ih cs (fun d hd => h d (List.mem_cons_of_mem _ hd))]

/-- `_clean_content` leaves a string without brackets, whitespace, or
equals signs unchanged. -/
theorem cleanContent_id (s : String)
    (h : ∀ c ∈ s.data, (c == '[') = false ∧ pyIsSpace c = false ∧ c ≠ '=') :
    cleanContent s = s := by
  show String.mk (pyStrip (stripSections (collapseWS (removeRefs s.data)))) = s
  unfold removeRefs
  rw [removeRefsAux_id _ _ (fun c hc => (h c hc).1)]
  unfold collapseWS
  rw [collapseWSAux_id _ _ (fun c hc => (h c hc).2.1)]
  unfold stripSections
  rw [stripSectionsAux_id _ _ (fun c hc => (h c hc).2.2)]
  unfold pyStrip
  rw [dropWhile_all_false (fun c hc => (h c hc).2.1),
    dropWhile_all_false (fun c hc =>
      (h c (List.mem_reverse.mp hc)).2.1),
    List.reverse_reverse]

theorem c8_raw_chars : ∀ c ∈ (pyTake c8Content 1000 ++ "...").data,
    (c == '[') = false ∧ pyIsSpace c = false ∧ c ≠ '=' := by
  intro c hc
  rw [String.data_append] at hc
  have htake : (pyTake c8Content 1000).data =
      List.replicate (min 1000 1001) 'a' := by
    show (List.replicate 1001 'a').take 1000 = _
    rw [List.take_replicate]
  rcases List.mem_append.mp hc with hm | hm
  · rw [htake] at hm
    have ha : c = 'a' := List.eq_of_mem_replicate hm
    rw [ha]
    refine ⟨rfl, rfl, by decide⟩
  · have hd : ("..." : String).data = ['.', '.', '.'] := rfl
    rw [hd] at hm
    simp only [List.mem_cons, List.not_mem_nil, or_false] at hm
    have ha : c = '.' := by
      rcases hm with h1 | h1 | h1 <;> exact h1
    rw [ha]
    refine ⟨rfl, rfl, by decide⟩

theorem pageSummaryResult_c8 :
    pageSummaryResult c8Content "" = pyTake c8Content 1000 ++ "..." := by
  show cleanContent (rawPageSummary c8Content "") = _
  rw [rawPageSummary_c8, cleanContent_id _ c8_raw_chars]

/-- C8 counterexample: a successfully fetched page whose single long
paragraph has 1001 characters produces a returned summary of 1003
characters — more than the claimed 1000-character cap. -/
theorem pageSummaryResult_exceeds_1000 :
    (pageSummaryResult c8Content "").length = 1003 ∧
    ¬((pageSummaryResult c8Content "").length ≤ 1000) := by
  have h : (pageSummaryResult c8Content "").length = 1003 := by
    rw [pageSummaryResult_c8, string_length_append, pyTake_length,
      c8Content_length]
    rfl
  exact ⟨h, by omega⟩

/-- C8 (amended): with at least one paragraph over 50 characters, the
returned summary is the cleaned join of up to 3 such paragraphs; when the
join exceeds 1000 characters it is cut to 1000 characters and an ellipsis
is appended, so the pre-cleanup text reaches 1003 (not 1000) characters,
and the cleanup can only shorten it. -/
theorem pageSummaryResult_spec (content pageSummary : String)
    (hp : longParagraphs content ≠ []) :
    pageSummaryResult content pageSummary =
      cleanContent (if (joinedExtract content).length > 1000
        then pyTake (joinedExtract content) 1000 ++ "..."
        else joinedExtract content) ∧
    ((joinedExtract content).length > 1000 →
      (rawPageSummary content pageSummary).length = 1003) ∧
    ((joinedExtract content).length ≤ 1000 →
      rawPageSummary content pageSummary = joinedExtract content) ∧
    (pageSummaryResult content pageSummary).length ≤
      (rawPageSummary content pageSummary).length := by
  have hraw : rawPageSummary content pageSummary =
      if (joinedExtract content).length > 1000
      then pyTake (joinedExtract content) 1000 ++ "..."
      else joinedExtract content := by
    unfold rawPageSummary
    rw [if_pos hp]
  refine ⟨?_, ?_, ?_, ?_⟩
  · show cleanContent (rawPageSummary content pageSummary) = _
    rw [hraw]
  · intro hgt
    rw [hraw, if_pos hgt, string_length_append, pyTake_length]
    have h3 : ("..." : String).length = 3 := rfl
    rw [h3]
    omega
  · intro hle
    rw [hraw, if_neg (by omega)]
  · show (cleanContent (rawPageSummary content pageSummary)).length ≤ _
    exact cleanContent_length_le _

/-- Witness for C8 (amended) at the counterexample content. -/
theorem pageSummaryResult_spec_witness :
    pageSummaryResult c8Content "" =
      cleanContent (pyTake (joinedExtract c8Content) 1000 ++ "...") := by
  have h := pageSummaryResult_spec c8Content ""
    (by rw [longParagraphs_c8]; simp)
  rw [h.1, if_pos (by rw [joinedExtract_c8, c8Content_length]; omega)]

end ChatBot
